import Mathlib

/-!
Shallow embedding of `fancygene/formats/gff.py` (functions
`extract_features_coord`, `sort_features`, `stat_features`, `print_stats`)
together with theorems checking the natural-language specification.

Text lines are modelled as `List Char`; a file's content is a `List Char`
(its bytes) or a list of lines.  Fallible Python code (uncaught exceptions)
is modelled with `Option`/`Except`.
-/

namespace Gff

/-- ASCII/Unicode whitespace as stripped by Python's `str.strip()`
(restricted to the characters that can occur in the claims). -/
def isWsChar (c : Char) : Bool :=
  c = ' ' || c = '\t' || c = '\n' || c = '\r' || c = '\x0b' || c = '\x0c'

/-- `str.strip()`: drop whitespace from both ends. -/
def pyStrip (l : List Char) : List Char :=
  ((l.dropWhile isWsChar).reverse.dropWhile isWsChar).reverse

/-- `str.split(sep)` for a one-character separator: always returns at least
one (possibly empty) piece, e.g. `"a;;b" ↦ ["a","","b"]`, `"" ↦ [""]`. -/
def pySplit (sep : Char) : List Char → List (List Char)
  | [] => [[]]
  | c :: cs =>
    if c = sep then [] :: pySplit sep cs
    else
      match pySplit sep cs with
      | t :: ts => (c :: t) :: ts
      | [] => [[c]]

/-- Numeric value of a nonempty run of decimal digits. -/
def digitsVal : List Char → Option Nat
  | [] => none
  | l =>
    if l.all Char.isDigit then
      some (l.foldl (fun n c => 10 * n + (c.toNat - '0'.toNat)) 0)
    else none

/-- Python `int(s)`: optional surrounding whitespace, optional sign,
then a nonempty run of decimal digits; anything else raises `ValueError`
(modelled as `none`). -/
def pyInt (s : List Char) : Option Int :=
  match pyStrip s with
  | '-' :: ds => (digitsVal ds).map (fun n => -(n : Int))
  | '+' :: ds => (digitsVal ds).map (fun n => (n : Int))
  | ds => (digitsVal ds).map (fun n => (n : Int))

/-- `line.startswith('#')` on the raw line. -/
def startsHash (l : List Char) : Bool :=
  match l with
  | '#' :: _ => true
  | _ => false

/-! ## `sort_features` -/

/-- The gff3 feature-rank table of `sort_features`
(`feature_order.get(feature, 99)`). -/
def gff3Rank (f : List Char) : Nat :=
  if f = "gene".data then 1
  else if f = "mRNA".data then 2
  else if f = "exon".data then 3
  else if f = "CDS".data then 4
  else if f = "five_prime_UTR".data then 5
  else if f = "three_prime_UTR".data then 6
  else 99

/-- The gtf2 feature-rank table of `sort_features`. -/
def gtf2Rank (f : List Char) : Nat :=
  if f = "gene".data then 1
  else if f = "transcript".data then 2
  else if f = "exon".data then 3
  else if f = "CDS".data then 4
  else if f = "start_codon".data then 5
  else if f = "stop_codon".data then 6
  else if f = "UTR".data then 7
  else 99

/-- `{'gff3': …, 'gtf2': …}.get(file_format)`: `none` models the Python
`None` obtained for any other format tag. -/
def rankTable (fmt : List Char) : Option (List Char → Nat) :=
  if fmt = "gff3".data then some gff3Rank
  else if fmt = "gtf2".data then some gtf2Rank
  else none

/-- The sort key `(chromosome, start, feature_rank, end)`. -/
abbrev SortKey := List Char × Int × Nat × Int

/-- Lexicographic `≤` on char lists, comparing code points
(Python string comparison). -/
def listLEb : List Char → List Char → Bool
  | [], _ => true
  | _ :: _, [] => false
  | a :: as, b :: bs =>
    if a.toNat < b.toNat then true
    else if b.toNat < a.toNat then false
    else listLEb as bs

/-- Lexicographic `≤` on sort keys (Python tuple comparison). -/
def keyLEb (x y : SortKey) : Bool :=
  if x.1 = y.1 then
    if x.2.1 = y.2.1 then
      if x.2.2.1 = y.2.2.1 then decide (x.2.2.2 ≤ y.2.2.2)
      else decide (x.2.2.1 ≤ y.2.2.1)
    else decide (x.2.1 ≤ y.2.1)
  else listLEb x.1 y.1

/-- The `sort_key` closure of `sort_features`: split the line on tabs and
build `(cols[0], int(cols[3]), feature_order.get(cols[2], 99), int(cols[4]))`.
`none` models any raised exception (missing column, non-integer coordinate,
or `feature_order` being `None` for an unknown format tag). -/
def sort_key (tbl : Option (List Char → Nat)) (l : List Char) : Option SortKey :=
  let cols := pySplit '\t' l
  match cols.get? 0, cols.get? 2, cols.get? 3, cols.get? 4 with
  | some c0, some c2, some c3, some c4 =>
    match pyInt c3, pyInt c4 with
    | some s, some e =>
      match tbl with
      | some t => some (c0, s, t c2, e)
      | none => none
    | _, _ => none
  | _, _, _, _ => none

/-- The line filter of `sort_features`:
`[line.strip() for line in lines if line.strip() and not line.startswith('#')]`. -/
def retainedOf (lines : List (List Char)) : List (List Char) :=
  (lines.filter (fun l => pyStrip l ≠ [] && !startsHash l)).map pyStrip

/-- Attach its sort key to every line; `none` as soon as one key raises
(Python's `sorted` computes every key, and any exception aborts). -/
def keyAll (tbl : Option (List Char → Nat)) : List (List Char) →
    Option (List ((List Char) × SortKey))
  | [] => some []
  | l :: ls =>
    match sort_key tbl l, keyAll tbl ls with
    | some k, some rest => some ((l, k) :: rest)
    | _, _ => none

/-- Stable insertion of a keyed line into an already sorted keyed list:
the element goes before the first entry whose key it is `≤`, hence after
every already placed entry with an equal key. -/
def insortKey (x : List Char × SortKey) :
    List (List Char × SortKey) → List (List Char × SortKey)
  | [] => [x]
  | y :: ys => if keyLEb x.2 y.2 then x :: y :: ys else y :: insortKey x ys

/-- Stable sort of the keyed lines by `keyLEb` on the key.  A stable sort
with respect to a fixed total preorder is extensionally unique, so this
models Python's stable `sorted(lines, key=sort_key)`. -/
def sortPairs : List (List Char × SortKey) → List (List Char × SortKey)
  | [] => []
  | x :: xs => insortKey x (sortPairs xs)

/-- `sort_features` at the level of input lines: filter, strip, then a
stable sort on the key.  `none` models the caught-and-reported exception
path (nothing is written). -/
def sortLines (fmt : List Char) (lines : List (List Char)) :
    Option (List (List Char)) :=
  match keyAll (rankTable fmt) (retainedOf lines) with
  | some keyed => some ((sortPairs keyed).map (·.1))
  | none => none

/-- The bytes written by `sort_features`:
`'\n'.join(sorted_lines)` followed by `'\n'`. -/
def outBytes (ls : List (List Char)) : List Char :=
  (List.intercalate ['\n'] ls) ++ ['\n']

/-- `sort_features` from file content (bytes) to output file content. -/
def sortContent (fmt content : List Char) : Option (List Char) :=
  (sortLines fmt (pySplit '\n' content)).map outBytes

/-! ## Filesystem wrapper for `sort_features`

`sort_features` catches `FileNotFoundError`, `IOError` and every other
exception at top level, reports it, and returns without writing.  We model
the filesystem as an association list from paths to contents, plus a list
of paths that cannot be opened for writing. -/

abbrev FS := List (List Char × List Char)

/-- Read a file's content, `none` when the path does not exist. -/
def lookupFs (fs : FS) (p : List Char) : Option (List Char) :=
  match fs with
  | [] => none
  | (q, c) :: rest => if q = p then some c else lookupFs rest p

/-- Overwrite (or create) a file. -/
def setFs (fs : FS) (p c : List Char) : FS :=
  match fs with
  | [] => [(p, c)]
  | (q, d) :: rest => if q = p then (q, c) :: rest else (q, d) :: setFs rest p c

/-- `sort_features` acting on the modelled filesystem: missing input,
any failure while building the sort keys, or an unwritable output path
(`ro`) each leads to the caught-exception path, which reports the error
and leaves the filesystem untouched. -/
def sort_features (ro : List (List Char)) (fs : FS)
    (fmt inPath outPath : List Char) : FS :=
  match lookupFs fs inPath with
  | none => fs
  | some content =>
    match sortLines fmt (pySplit '\n' content) with
    | none => fs
    | some out => if outPath ∈ ro then fs else setFs fs outPath (outBytes out)

/-! ## `extract_features_coord` -/

/-- The exceptions `extract_features_coord` can raise (it has no
`try`/`except`, so they propagate to the caller). -/
inductive PyErr where
  | keyError
  | indexError
  | valueError
  | attributeError
deriving DecidableEq, Repr

/-- `\w` of Python's `re` restricted to ASCII word characters. -/
def isWordChar (c : Char) : Bool :=
  c.isAlpha || c.isDigit || c = '_'

/-- `re.match` of the gff3 attribute pattern `(?P<key>\w+)=(?P<value>[^;]+)`
against one `;`-split token, returning the two groups. -/
def matchGff3 (t : List Char) : Option (List Char × List Char) :=
  let k := t.takeWhile isWordChar
  match t.drop k.length with
  | '=' :: rest =>
    let v := rest.takeWhile (fun c => c ≠ ';')
    if k = [] then none else if v = [] then none else some (k, v)
  | _ => none

/-- `re.match` of the gtf2 attribute pattern
`(?P<key>\w+) "(?P<value>[^"]+)"` against one token. -/
def matchGtf2 (t : List Char) : Option (List Char × List Char) :=
  let k := t.takeWhile isWordChar
  match t.drop k.length with
  | ' ' :: '\"' :: rest =>
    let v := rest.takeWhile (fun c => c ≠ '\"')
    if k = [] then none
    else if v = [] then none
    else match rest.drop v.length with
      | '\"' :: _ => some (k, v)
      | _ => none
  | _ => none

/-- `patterns[file_format]`: a `KeyError` for any other tag. -/
def attrPattern (fmt : List Char) :
    Option (List Char → Option (List Char × List Char)) :=
  if fmt = "gff3".data then some matchGff3
  else if fmt = "gtf2".data then some matchGtf2
  else none

/-- Python dict insertion: a duplicate key overwrites the value in place,
a new key is appended. -/
def dictPut (d : List (List Char × List Char)) (k v : List Char) :
    List (List Char × List Char) :=
  match d with
  | [] => [(k, v)]
  | (k', v') :: rest =>
    if k' = k then (k', v) :: rest else (k', v') :: dictPut rest k v

/-- Association-list lookup (Python `key in dict` / `dict[key]`). -/
def alookup {β : Type} (d : List (List Char × β)) (k : List Char) : Option β :=
  match d with
  | [] => none
  | (k', v) :: rest => if k' = k then some v else alookup rest k

/-- The dict comprehension of line 39: match every token and collect the
groups into a dict; `none` models the `AttributeError` raised when
`pattern.match(attr)` returns `None` for some token. -/
def parseAttrs (pat : List Char → Option (List Char × List Char))
    (tokens : List (List Char)) : Option (List (List Char × List Char)) :=
  go tokens []
where
  go : List (List Char) → List (List Char × List Char) →
      Option (List (List Char × List Char))
  | [], d => some d
  | t :: ts, d =>
    match pat t with
    | some (k, v) => go ts (dictPut d k v)
    | none => none

/-- One grouped coordinate record `[line[0], int(line[3]), int(line[4]), line[6]]`. -/
abbrev Entry := List Char × Int × Int × List Char

/-- The grouping dict `coord`: a `defaultdict(list)` in insertion order. -/
abbrev Coord := List (List Char × List Entry)

/-- `coord[k].append(e)` on a `defaultdict(list)`: append to the existing
list, or insert the key at the end with a one-element list. -/
def coordAdd (d : Coord) (k : List Char) (e : Entry) : Coord :=
  match d with
  | [] => [(k, [e])]
  | (k', es) :: rest =>
    if k' = k then (k', es ++ [e]) :: rest else (k', es) :: coordAdd rest k e

/-- Processing of one line of `extract_features_coord` (lines 33–44):
skip comments and blank lines, split on tabs, compare `line[2]` with the
target feature, parse `line[8]`, and append the record under
`attributes[key]`.  Index accesses out of range raise `IndexError`; a
failing attribute match raises `AttributeError`; a missing grouping key or
a non-integer coordinate raises `ValueError`. -/
def extractStep (pat : List Char → Option (List Char × List Char))
    (feature key : List Char) (coord : Coord) (l : List Char) :
    Except PyErr Coord :=
  if startsHash l || pyStrip l = [] then .ok coord
  else
    let cols := pySplit '\t' (pyStrip l)
    match cols.get? 2 with
    | none => .error .indexError
    | some f =>
      if f ≠ feature then .ok coord
      else
        match cols.get? 8 with
        | none => .error .indexError
        | some attrField =>
          match parseAttrs pat (pySplit ';' attrField) with
          | none => .error .attributeError
          | some attrs =>
            match alookup attrs key with
            | none => .error .valueError
            | some kval =>
              match cols.get? 0, cols.get? 3, cols.get? 4, cols.get? 6 with
              | some c0, some c3, some c4, some c6 =>
                match pyInt c3, pyInt c4 with
                | some s, some e => .ok (coordAdd coord kval (c0, s, e, c6))
                | _, _ => .error .valueError
              | _, _, _, _ => .error .indexError

/-- Fold `extractStep` over the lines, aborting at the first exception. -/
def extractFrom (pat : List Char → Option (List Char × List Char))
    (feature key : List Char) (coord : Coord) :
    List (List Char) → Except PyErr Coord
  | [] => .ok coord
  | l :: ls =>
    match extractStep pat feature key coord l with
    | .ok coord' => extractFrom pat feature key coord' ls
    | .error e => .error e

/-- `extract_features_coord` on the input file's lines.  An unknown format
tag raises `KeyError` at `patterns[file_format]` before any line is read. -/
def extract_features_coord (fmt feature key : List Char)
    (lines : List (List Char)) : Except PyErr Coord :=
  match attrPattern fmt with
  | none => .error .keyError
  | some pat => extractFrom pat feature key [] lines

/-! ## `stat_features` -/

/-- A `collections.Counter` (or plain dict) keyed by parent ID, in
insertion order. -/
abbrev Cntr := List (List Char × Int)

/-- `counter[k]`: 0 for a missing key (and no insertion). -/
def cget (c : Cntr) (k : List Char) : Int :=
  match alookup c k with
  | some v => v
  | none => 0

/-- `counter[k] += v`: update in place, or append the key. -/
def cadd (c : Cntr) (k : List Char) (v : Int) : Cntr :=
  match c with
  | [] => [(k, v)]
  | (k', v') :: rest =>
    if k' = k then (k', v' + v) :: rest else (k', v') :: cadd rest k v

/-- `d[k] = v` on a plain dict. -/
def dset (c : Cntr) (k : List Char) (v : Int) : Cntr :=
  match c with
  | [] => [(k, v)]
  | (k', v') :: rest =>
    if k' = k then (k', v) :: rest else (k', v') :: dset rest k v

/-- The accumulators of `stat_features` (lines 115–126).
`exon_end` is a plain dict, the rest keyed by parent are `Counter`s. -/
structure StatState where
  gene_lengths : List Int
  mRNA_lengths : List Int
  mRNA_count_per_gene : Cntr
  CDS_lengths_per_mRNA : Cntr
  CDS_count_per_mRNA : Cntr
  exon_lengths_per_mRNA : Cntr
  exon_count_per_mRNA : Cntr
  exon_end : Cntr
  intron_lengths_per_mRNA : Cntr
  intron_count_per_mRNA : Cntr
  five_prime_utr_lengths_per_mRNA : List Int
  three_prime_utr_lengths_per_mRNA : List Int
deriving Repr, DecidableEq

/-- The fresh accumulators. -/
def initState : StatState :=
  ⟨[], [], [], [], [], [], [], [], [], [], [], []⟩

/-- `re.search(r'Parent=([^;]+)', attributes)`: the first position where
the substring `Parent=` is followed by at least one non-`;` character;
group 1 is the maximal run of non-`;` characters after it. -/
def parentSearch : List Char → Option (List Char)
  | [] => none
  | c :: cs =>
    if "Parent=".data.isPrefixOf (c :: cs) then
      let v := ((c :: cs).drop "Parent=".data.length).takeWhile (fun ch => ch ≠ ';')
      if v = [] then parentSearch cs else some v
    else parentSearch cs

/-- Field extraction of `stat_features` for one retained line:
`line[2]`, `line[-1]`, `int(line[3])`, `int(line[4])` after
`line.strip().split('\t')`.  `none` models any raised exception. -/
def parseStatLine (l : List Char) :
    Option (List Char × Int × Int × List Char) :=
  let cols := pySplit '\t' (pyStrip l)
  match cols.get? 2, cols.getLast?, cols.get? 3, cols.get? 4 with
  | some f, some attrs, some c3, some c4 =>
    match pyInt c3, pyInt c4 with
    | some s, some e => some (f, s, e, attrs)
    | _, _ => none
  | _, _, _, _ => none

/-- Processing of one line of `stat_features` (lines 131–175): skip
comments and blank lines; a `gene` only appends its length; every other
feature first requires a `Parent=` match (otherwise the `AttributeError`
aborts, modelled as `none`); then the per-feature accumulation, with
unlisted feature types ignored. -/
def statStep (st : StatState) (l : List Char) : Option StatState :=
  if startsHash l || pyStrip l = [] then some st
  else
    match parseStatLine l with
    | none => none
    | some (f, s, e, attrs) =>
      let len := e - s + 1
      if f = "gene".data then
        some { st with gene_lengths := st.gene_lengths ++ [len] }
      else
        match parentSearch attrs with
        | none => none
        | some parent =>
          if f = "mRNA".data then
            some { st with
              mRNA_lengths := st.mRNA_lengths ++ [len]
              mRNA_count_per_gene := cadd st.mRNA_count_per_gene parent 1 }
          else if f = "CDS".data then
            some { st with
              CDS_lengths_per_mRNA := cadd st.CDS_lengths_per_mRNA parent len
              CDS_count_per_mRNA := cadd st.CDS_count_per_mRNA parent 1 }
          else if f = "exon".data then
            if cget st.exon_count_per_mRNA parent > 0 then
              match alookup st.exon_end parent with
              | none => none
              | some prevEnd =>
                some { st with
                  intron_lengths_per_mRNA :=
                    cadd st.intron_lengths_per_mRNA parent (s - prevEnd - 1)
                  intron_count_per_mRNA :=
                    cadd st.intron_count_per_mRNA parent 1
                  exon_lengths_per_mRNA :=
                    cadd st.exon_lengths_per_mRNA parent len
                  exon_count_per_mRNA :=
                    cadd st.exon_count_per_mRNA parent 1
                  exon_end := dset st.exon_end parent e }
            else
              some { st with
                exon_lengths_per_mRNA :=
                  cadd st.exon_lengths_per_mRNA parent len
                exon_count_per_mRNA :=
                  cadd st.exon_count_per_mRNA parent 1
                exon_end := dset st.exon_end parent e }
          else if f = "five_prime_UTR".data then
            some { st with
              five_prime_utr_lengths_per_mRNA :=
                st.five_prime_utr_lengths_per_mRNA ++ [len] }
          else if f = "three_prime_UTR".data then
            some { st with
              three_prime_utr_lengths_per_mRNA :=
                st.three_prime_utr_lengths_per_mRNA ++ [len] }
          else some st

/-- Fold `statStep` over the lines, aborting at the first exception. -/
def statFrom (st : StatState) : List (List Char) → Option StatState
  | [] => some st
  | l :: ls =>
    match statStep st l with
    | none => none
    | some st' => statFrom st' ls

/-- The whole accumulation loop of `stat_features`. -/
def processStat (lines : List (List Char)) : Option StatState :=
  statFrom initState lines

/-! ## The report of `print_stats` -/

/-- One printed line of `print_stats`. -/
inductive StatLine where
  | cnt (name : List Char) (n : Nat)
  | maxL (name : List Char) (v : Int)
  | minL (name : List Char) (v : Int)
  | medAvg (name : List Char) (median : ℚ) (meanRounded : ℚ)
deriving DecidableEq, Repr

/-- `max(lengths)` of a nonempty list. -/
def listMax (l : List Int) : Int :=
  l.foldl max (l.headD 0)

/-- `min(lengths)` of a nonempty list. -/
def listMin (l : List Int) : Int :=
  l.foldl min (l.headD 0)

/-- Insertion into a sorted list of integers (for `statistics.median`,
which sorts its data; the value is independent of the sort used). -/
def insortI (x : Int) : List Int → List Int
  | [] => [x]
  | y :: ys => if x ≤ y then x :: y :: ys else y :: insortI x ys

/-- Insertion sort of integers. -/
def sortInts : List Int → List Int
  | [] => []
  | x :: xs => insortI x (sortInts xs)

/-- `statistics.median`: middle of the sorted data, or the average of the
two middle values for an even count. -/
def medianQ (l : List Int) : ℚ :=
  let s := sortInts l
  let n := s.length
  if n % 2 = 1 then ((s.getD (n / 2) 0 : Int) : ℚ)
  else (((s.getD (n / 2 - 1) 0 + s.getD (n / 2) 0 : Int) : ℚ)) / 2

/-- `statistics.mean`. -/
def meanQ (l : List Int) : ℚ :=
  ((l.sum : Int) : ℚ) / (l.length : ℚ)

/-- The 2-decimal display rounding of `f"{mean:.2f}"`, modelled as
rounding to the nearest hundredth. -/
def round2 (q : ℚ) : ℚ :=
  ((round (q * 100) : Int) : ℚ) / 100

/-- `print_stats(name, lengths)`: only the count for an empty list,
otherwise count, max, min and the combined `Median/AVG` line with the
mean displayed to 2 decimal places. -/
def print_stats (name : List Char) (lengths : List Int) : List StatLine :=
  if lengths = [] then [.cnt name 0]
  else
    [.cnt name lengths.length,
     .maxL name (listMax lengths),
     .minL name (listMin lengths),
     .medAvg name (medianQ lengths) (round2 (meanQ lengths))]

/-- The seven (name, collected list) pairs passed to `print_stats`,
in call order (lines 200–206); the per-parent counters contribute their
`.values()` in insertion order. -/
def statLists (st : StatState) : List (List Char × List Int) :=
  [("gene".data, st.gene_lengths),
   ("mRNA".data, st.mRNA_lengths),
   ("CDS".data, st.CDS_lengths_per_mRNA.map (·.2)),
   ("exon".data, st.exon_lengths_per_mRNA.map (·.2)),
   ("intron".data, st.intron_lengths_per_mRNA.map (·.2)),
   ("five_prime_utr".data, st.five_prime_utr_lengths_per_mRNA),
   ("three_prime_utr".data, st.three_prime_utr_lengths_per_mRNA)]

/-- The full printed report. -/
def statReport (st : StatState) : List StatLine :=
  (statLists st).flatMap (fun p => print_stats p.1 p.2)

/-- `stat_features` on the input file's lines: `none` models the
caught-and-reported exception path, where no statistics are printed. -/
def stat_features (lines : List (List Char)) : Option (List StatLine) :=
  (processStat lines).map statReport

/-! ## Specification-side definitions

These follow the spec's wording (not the code) and are only used to compare
the embedded code against the claims. -/

/-- Specification-side: re-serialize attribute pairs in order,
`k1=v1;k2=v2`. -/
def serializeAttrs (ps : List (List Char × List Char)) : List Char :=
  List.intercalate [';'] (ps.map (fun p => p.1 ++ '=' :: p.2))

/-- Specification-side: a valid GFF3 attribute pair list — at least one
token, distinct keys, each key a nonempty run of word characters, each
value a nonempty run of non-`;` characters. -/
def validAttrPairs (ps : List (List Char × List Char)) : Bool :=
  ps ≠ [] && (ps.map (·.1)).Nodup &&
    ps.all (fun p => p.1 ≠ [] && p.1.all isWordChar && p.2 ≠ [] && ';' ∉ p.2)

/-- Specification-side: the exon records `(start, end)` that
`stat_features` attributes to parent `p`, in file order. -/
def exonLineOf (p l : List Char) : Option (Int × Int) :=
  if startsHash l || pyStrip l = [] then none
  else
    match parseStatLine l with
    | some (f, s, e, attrs) =>
      if f = "exon".data then
        match parentSearch attrs with
        | some q => if q = p then some (s, e) else none
        | none => none
      else none
    | none => none

/-- The exon records of parent `p` over a whole file, in file order. -/
def exonsOf (p : List Char) (lines : List (List Char)) : List (Int × Int) :=
  lines.filterMap (exonLineOf p)

/-- Specification-side: summed intron lengths derived from consecutive
exon records in file order, continuing after a previous exon end. -/
def specIntronFrom (pe : Int) : List (Int × Int) → Int
  | [] => 0
  | (s, e) :: rest => (s - pe - 1) + specIntronFrom e rest

/-- Specification-side: total derived intron length of an exon list —
each exon after the first contributes `start − previous.end − 1`. -/
def specIntronTotal : List (Int × Int) → Int
  | [] => 0
  | (_, e) :: rest => specIntronFrom e rest

/-- Specification-side: number of derived introns (one per exon record
after the first). -/
def specIntronCount (es : List (Int × Int)) : Int :=
  if es = [] then 0 else (es.length : Int) - 1

/-- A retained, fully parsed non-`gene` line with no `Parent=` match
(the situation claim C6 is about). -/
def missingParentLine (l : List Char) : Bool :=
  !startsHash l && !(pyStrip l).isEmpty &&
    (match parseStatLine l with
     | some (f, _, _, attrs) =>
       f ≠ "gene".data && (parentSearch attrs).isNone
     | none => false)

/-- Specification-side: first-occurrence order of a key list, given the
keys already seen. -/
def firstKeys (seen : List (List Char)) : List (List Char) → List (List Char)
  | [] => []
  | k :: ks => if k ∈ seen then firstKeys seen ks else k :: firstKeys (k :: seen) ks

/-- Specification-side: the keys of a file in first-occurrence order. -/
def firstOccurrences (ks : List (List Char)) : List (List Char) :=
  firstKeys [] ks

/-- Specification-side: the flat `(key value, record)` extraction of
`extract_features_coord` for one line — `some` exactly on the lines that
append a record, `none` on skipped lines. -/
def extractLineParse (pat : List Char → Option (List Char × List Char))
    (feature key l : List Char) : Option (List Char × Entry) :=
  if startsHash l || pyStrip l = [] then none
  else
    let cols := pySplit '\t' (pyStrip l)
    match cols.get? 2 with
    | none => none
    | some f =>
      if f ≠ feature then none
      else
        match cols.get? 8 with
        | none => none
        | some attrField =>
          match parseAttrs pat (pySplit ';' attrField) with
          | none => none
          | some attrs =>
            match alookup attrs key with
            | none => none
            | some kval =>
              match cols.get? 0, cols.get? 3, cols.get? 4, cols.get? 6 with
              | some c0, some c3, some c4, some c6 =>
                match pyInt c3, pyInt c4 with
                | some s, some e => some (kval, (c0, s, e, c6))
                | _, _ => none
              | _, _, _, _ => none

/-- The flat record stream of a whole file, in file order. -/
def extractPairs (pat : List Char → Option (List Char × List Char))
    (feature key : List Char) (lines : List (List Char)) :
    List (List Char × Entry) :=
  lines.filterMap (extractLineParse pat feature key)

/-- Grouping a flat record stream by repeated `coordAdd`. -/
def foldCoord (acc : Coord) : List (List Char × Entry) → Coord
  | [] => acc
  | (k, e) :: rest => foldCoord (coordAdd acc k e) rest

/-! ## Proof-side projections for the intron computation -/

/-- The four per-parent accumulator components involved in intron
derivation: exon count, last exon end, intron length total, intron count. -/
def exonProj (st : StatState) (p : List Char) : Int × Option Int × Int × Int :=
  (cget st.exon_count_per_mRNA p, alookup st.exon_end p,
   cget st.intron_lengths_per_mRNA p, cget st.intron_count_per_mRNA p)

/-- The effect of one exon record `(s, e)` on those four components
(lines 161–167 of the source). -/
def stepExonP (t : Int × Option Int × Int × Int) (se : Int × Int) :
    Option (Int × Option Int × Int × Int) :=
  if t.1 > 0 then
    match t.2.1 with
    | none => none
    | some pe => some (t.1 + 1, some se.2, t.2.2.1 + (se.1 - pe - 1), t.2.2.2 + 1)
  else some (t.1 + 1, some se.2, t.2.2.1, t.2.2.2)

/-- Fold `stepExonP` over an exon record list. -/
def foldExonP (t : Int × Option Int × Int × Int) :
    List (Int × Int) → Option (Int × Option Int × Int × Int)
  | [] => some t
  | se :: rest =>
    match stepExonP t se with
    | some t' => foldExonP t' rest
    | none => none

/-- The `Prop`-level sort-key comparison between two output lines. -/
def keyLEprop (tbl : List Char → Nat) (a b : List Char) : Prop :=
  ∀ ka kb, sort_key (some tbl) a = some ka → sort_key (some tbl) b = some kb →
    keyLEb ka kb = true

/-! ## Helper lemmas -/

theorem sort_key_noTable (l : List Char) : sort_key none l = none := by
  simp only [sort_key]
  repeat' split
  all_goals rfl

theorem keyAll_noTable (l : List Char) (ls : List (List Char)) :
    keyAll none (l :: ls) = none := by
  unfold keyAll
  rw [sort_key_noTable]

theorem sortLines_noTable (fmt : List Char) (lines : List (List Char))
    (hfmt : rankTable fmt = none) (hne : retainedOf lines ≠ []) :
    sortLines fmt lines = none := by
  unfold sortLines
  rw [hfmt]
  cases h : retainedOf lines with
  | nil => exact absurd h hne
  | cons l ls => rw [keyAll_noTable]

/-- Claim C10: for a format tag other than `gff3`/`gtf2` and an input file
with at least one non-comment, non-blank line, `sort_features` reports the
per-line sort-key failure (the rank table is `None`), raises nothing to
the caller, and never opens or writes the output destination: the
filesystem is unchanged. -/
theorem sort_features_unknown_format (ro : List (List Char)) (fs : FS)
    (fmt inPath outPath content : List Char)
    (hfmt : rankTable fmt = none)
    (hin : lookupFs fs inPath = some content)
    (hne : retainedOf (pySplit '\n' content) ≠ []) :
    sort_features ro fs fmt inPath outPath = fs ∧
    sortLines fmt (pySplit '\n' content) = none := by
  have hsl := sortLines_noTable fmt (pySplit '\n' content) hfmt hne
  refine ⟨?_, hsl⟩
  simp only [sort_features, hin, hsl]

theorem sort_features_unknown_format_witness :
    rankTable "gff".data = none ∧
    lookupFs [("in.gff".data, "a\tb\tc\t1\t2".data)] "in.gff".data =
      some "a\tb\tc\t1\t2".data ∧
    retainedOf (pySplit '\n' "a\tb\tc\t1\t2".data) ≠ [] ∧
    (sort_features [] [("in.gff".data, "a\tb\tc\t1\t2".data)]
        "gff".data "in.gff".data "out.gff".data =
      [("in.gff".data, "a\tb\tc\t1\t2".data)] ∧
     sortLines "gff".data (pySplit '\n' "a\tb\tc\t1\t2".data) = none) :=
  ⟨rfl, by decide, by decide,
   sort_features_unknown_format [] [("in.gff".data, "a\tb\tc\t1\t2".data)]
     "gff".data "in.gff".data "out.gff".data "a\tb\tc\t1\t2".data
     rfl (by decide) (by decide)⟩

/-- Claim C8: on I/O failure in `sort_features` — the input file missing,
or the output destination unwritable — the failure is caught and reported
and the filesystem is left unchanged: no partial or inconsistent output
file is created or modified. -/
theorem sort_features_io_failure (ro : List (List Char)) (fs : FS)
    (fmt inPath outPath : List Char)
    (h : lookupFs fs inPath = none ∨ outPath ∈ ro) :
    sort_features ro fs fmt inPath outPath = fs := by
  rcases h with h | h
  · simp only [sort_features, h]
  · cases hin : lookupFs fs inPath with
    | none => simp only [sort_features, hin]
    | some content =>
      cases hs : sortLines fmt (pySplit '\n' content) with
      | none => simp only [sort_features, hin, hs]
      | some out => simp only [sort_features, hin, hs, if_pos h]

theorem sort_features_io_failure_witness :
    (lookupFs [] "in.gff".data = none ∨ "out.gff".data ∈ ([] : List (List Char))) ∧
    sort_features [] [] "gff3".data "in.gff".data "out.gff".data = [] :=
  ⟨Or.inl rfl,
   sort_features_io_failure [] [] "gff3".data "in.gff".data "out.gff".data
     (Or.inl rfl)⟩

/-- Claim C7, counterexample: a non-comment line with only 8 tab-separated
fields whose third field matches the target feature makes
`extract_features_coord` fail with an uncaught index-out-of-range error —
there is no `MalformedRecordError` anywhere in the code. -/
theorem extract_malformed_counterexample :
    extract_features_coord "gff3".data "gene".data "ID".data
      ["c\ts\tgene\t1\t2\t.\t+\t.".data] = .error .indexError := by rfl

/-- Claim C7 (amended): in `extract_features_coord`, a non-comment,
non-blank line with fewer than 9 tab-separated fields fails with an
uncaught `IndexError` when its third field equals the target feature (or
when it has fewer than 3 fields), and is silently skipped when its third
field differs from the target; no `MalformedRecordError` is raised. -/
theorem extract_malformed_record_indexError
    (pat : List Char → Option (List Char × List Char))
    (feature key : List Char) (coord : Coord) (l : List Char)
    (hh : startsHash l = false) (hs : pyStrip l ≠ [])
    (hlen : (pySplit '\t' (pyStrip l)).length ≤ 8) :
    ((pySplit '\t' (pyStrip l)).get? 2 = some feature →
      extractStep pat feature key coord l = .error .indexError) ∧
    (∀ f, (pySplit '\t' (pyStrip l)).get? 2 = some f → f ≠ feature →
      extractStep pat feature key coord l = .ok coord) ∧
    ((pySplit '\t' (pyStrip l)).length ≤ 2 →
      extractStep pat feature key coord l = .error .indexError) ∧
    (∀ fmt, attrPattern fmt = some pat →
      (pySplit '\t' (pyStrip l)).get? 2 = some feature →
      extract_features_coord fmt feature key [l] = .error .indexError) := by
  have h8 : (pySplit '\t' (pyStrip l)).get? 8 = none := by
    rw [List.get?_eq_none]
    omega
  have main : ∀ c : Coord, (pySplit '\t' (pyStrip l)).get? 2 = some feature →
      extractStep pat feature key c l = .error .indexError := by
    intro c h2
    simp only [extractStep, hh, hs, h2, h8]
    simp
  refine ⟨main coord, ?_, ?_, ?_⟩
  · intro f h2 hne
    simp only [extractStep, hh, hs, h2]
    simp [hne]
  · intro h2
    have : (pySplit '\t' (pyStrip l)).get? 2 = none := by
      rw [List.get?_eq_none]; omega
    simp only [extractStep, hh, hs, this]
    simp
  · intro fmt hp h2
    simp only [extract_features_coord, hp, extractFrom, main [] h2]

theorem extract_malformed_record_indexError_witness :
    startsHash "c\ts\tgene\t1\t2\t.\t+\t.".data = false ∧
    pyStrip "c\ts\tgene\t1\t2\t.\t+\t.".data ≠ [] ∧
    (pySplit '\t' (pyStrip "c\ts\tgene\t1\t2\t.\t+\t.".data)).length ≤ 8 ∧
    (((pySplit '\t' (pyStrip "c\ts\tgene\t1\t2\t.\t+\t.".data)).get? 2 =
        some "gene".data →
      extractStep matchGff3 "gene".data "ID".data []
        "c\ts\tgene\t1\t2\t.\t+\t.".data = .error .indexError) ∧
     (∀ f, (pySplit '\t' (pyStrip "c\ts\tgene\t1\t2\t.\t+\t.".data)).get? 2 =
        some f → f ≠ "gene".data →
      extractStep matchGff3 "gene".data "ID".data []
        "c\ts\tgene\t1\t2\t.\t+\t.".data = .ok []) ∧
     ((pySplit '\t' (pyStrip "c\ts\tgene\t1\t2\t.\t+\t.".data)).length ≤ 2 →
      extractStep matchGff3 "gene".data "ID".data []
        "c\ts\tgene\t1\t2\t.\t+\t.".data = .error .indexError) ∧
     (∀ fmt, attrPattern fmt = some matchGff3 →
      (pySplit '\t' (pyStrip "c\ts\tgene\t1\t2\t.\t+\t.".data)).get? 2 =
        some "gene".data →
      extract_features_coord fmt "gene".data "ID".data
        ["c\ts\tgene\t1\t2\t.\t+\t.".data] = .error .indexError)) :=
  ⟨by decide, by decide, by decide,
   extract_malformed_record_indexError matchGff3 "gene".data "ID".data []
     "c\ts\tgene\t1\t2\t.\t+\t.".data (by decide) (by decide) (by decide)⟩

theorem statStep_missingParent (st : StatState) (l : List Char)
    (h : missingParentLine l = true) : statStep st l = none := by
  unfold missingParentLine at h
  simp only [Bool.and_eq_true, Bool.not_eq_true'] at h
  obtain ⟨⟨hh, he⟩, hm⟩ := h
  cases hp : parseStatLine l with
  | none => rw [hp] at hm; cases hm
  | some q =>
    obtain ⟨f, s, e, attrs⟩ := q
    rw [hp] at hm
    simp only [Bool.and_eq_true, Option.isNone_iff_eq_none, decide_eq_true_eq] at hm
    obtain ⟨hf, hps⟩ := hm
    have hstrip : pyStrip l ≠ [] := by
      intro hnil; rw [hnil] at he; cases he
    simp only [statStep, hh, hstrip, hp, hps]
    simp [hf]

theorem statFrom_abort (l : List Char) (hbad : missingParentLine l = true) :
    ∀ lines st, l ∈ lines → statFrom st lines = none := by
  intro lines
  induction lines with
  | nil => intro st hmem; cases hmem
  | cons x xs ih =>
    intro st hmem
    unfold statFrom
    cases hx : statStep st x with
    | none => rfl
    | some st' =>
      rcases List.mem_cons.mp hmem with rfl | hmem'
      · rw [statStep_missingParent st l hbad] at hx; cases hx
      · exact ih st' hmem'

/-- Claim C6: in `stat_features`, any non-comment, non-blank, parseable
non-`gene` feature line (of any feature type) whose attribute column has
no `Parent=` match aborts the whole computation with no statistics output
(`none`), while a `gene` line never needs a parent: it only appends its
length. -/
theorem stat_missing_parent (lines : List (List Char)) (l₀ : List Char)
    (hmem : l₀ ∈ lines) (hbad : missingParentLine l₀ = true)
    (st : StatState) (g : List Char) (s e : Int) (attrs : List Char)
    (hg : parseStatLine g = some ("gene".data, s, e, attrs))
    (hgh : startsHash g = false) (hgs : pyStrip g ≠ []) :
    stat_features lines = none ∧
    statStep st g = some { st with gene_lengths := st.gene_lengths ++ [e - s + 1] } := by
  constructor
  · unfold stat_features processStat
    rw [statFrom_abort l₀ hbad lines initState hmem]
    rfl
  · simp only [statStep, hgh, hgs, hg]
    simp

theorem stat_missing_parent_witness :
    "c\ts\tCDS\t1\t9\t.\t+\t.\tID=x".data ∈
      ["c\ts\tCDS\t1\t9\t.\t+\t.\tID=x".data] ∧
    missingParentLine "c\ts\tCDS\t1\t9\t.\t+\t.\tID=x".data = true ∧
    parseStatLine "c\ts\tgene\t1\t9\t.\t+\t.\tID=g".data =
      some ("gene".data, 1, 9, "ID=g".data) ∧
    startsHash "c\ts\tgene\t1\t9\t.\t+\t.\tID=g".data = false ∧
    pyStrip "c\ts\tgene\t1\t9\t.\t+\t.\tID=g".data ≠ [] ∧
    (stat_features ["c\ts\tCDS\t1\t9\t.\t+\t.\tID=x".data] = none ∧
     statStep initState "c\ts\tgene\t1\t9\t.\t+\t.\tID=g".data =
       some { initState with
         gene_lengths := initState.gene_lengths ++ [(9 : Int) - 1 + 1] }) :=
  ⟨by decide, by decide, by decide, by decide, by decide,
   stat_missing_parent ["c\ts\tCDS\t1\t9\t.\t+\t.\tID=x".data]
     "c\ts\tCDS\t1\t9\t.\t+\t.\tID=x".data (by decide) (by decide)
     initState "c\ts\tgene\t1\t9\t.\t+\t.\tID=g".data 1 9 "ID=g".data
     (by decide) (by decide) (by decide)⟩

theorem cget_cons (q : List Char) (w : Int) (c : Cntr) (k' : List Char) :
    cget ((q, w) :: c) k' = if q = k' then w else cget c k' := by
  by_cases h : q = k' <;> simp [cget, alookup, h]

theorem cget_cadd (c : Cntr) (k k' : List Char) (v : Int) :
    cget (cadd c k v) k' = if k = k' then cget c k' + v else cget c k' := by
  induction c with
  | nil =>
    by_cases h : k = k' <;> simp [cadd, cget, alookup, h]
  | cons p rest ih =>
    obtain ⟨q, w⟩ := p
    by_cases hq : q = k
    · subst hq
      simp only [cadd, if_pos rfl]
      by_cases h : q = k' <;> simp [cget_cons, h]
    · simp only [cadd, if_neg hq]
      by_cases h : q = k'
      · subst h
        have hk : ¬ k = q := fun hh => hq hh.symm
        simp [cget_cons, hk]
      · simp [cget_cons, hq, h, ih]

theorem alookup_cons {β : Type} (q : List Char) (w : β)
    (c : List (List Char × β)) (k' : List Char) :
    alookup ((q, w) :: c) k' = if q = k' then some w else alookup c k' := by
  by_cases h : q = k' <;> simp [alookup, h]

theorem alookup_dset (c : Cntr) (k k' : List Char) (v : Int) :
    alookup (dset c k v) k' = if k = k' then some v else alookup c k' := by
  induction c with
  | nil =>
    by_cases h : k = k' <;> simp [dset, alookup, h]
  | cons p rest ih =>
    obtain ⟨q, w⟩ := p
    by_cases hq : q = k
    · subst hq
      simp only [dset, if_pos rfl]
      by_cases h : q = k' <;> simp [alookup_cons, h]
    · simp only [dset, if_neg hq]
      by_cases h : q = k'
      · subst h
        have hk : ¬ k = q := fun hh => hq hh.symm
        simp [alookup_cons, hk]
      · simp [alookup_cons, hq, h, ih]

theorem statStep_exonProj (st st' : StatState) (p l : List Char)
    (h : statStep st l = some st') :
    (exonLineOf p l = none → exonProj st' p = exonProj st p) ∧
    (∀ se, exonLineOf p l = some se →
      stepExonP (exonProj st p) se = some (exonProj st' p)) := by
  unfold statStep at h
  unfold exonLineOf
  by_cases hskip : (startsHash l || decide (pyStrip l = [])) = true
  · rw [if_pos hskip] at h
    rw [if_pos hskip]
    cases h
    exact ⟨fun _ => rfl, fun se hse => by cases hse⟩
  · rw [if_neg hskip] at h
    rw [if_neg hskip]
    cases hp : parseStatLine l with
    | none =>
      rw [hp] at h
      exact absurd h (by simp)
    | some q =>
      obtain ⟨f, s, e, attrs⟩ := q
      rw [hp] at h
      dsimp only at h ⊢
      by_cases hf : f = "gene".data
      · subst hf
        rw [if_pos rfl] at h
        cases h
        rw [if_neg (by decide : ¬("gene".data = "exon".data))]
        exact ⟨fun _ => rfl, fun se hse => by cases hse⟩
      · rw [if_neg hf] at h
        cases hps : parentSearch attrs with
        | none =>
          rw [hps] at h
          exact absurd h (by simp)
        | some parent =>
          rw [hps] at h
          dsimp only at h
          by_cases he : f = "exon".data
          · subst he
            rw [if_neg (by decide : ¬("exon".data = "mRNA".data)),
               if_neg (by decide : ¬("exon".data = "CDS".data)), if_pos rfl] at h
            rw [if_pos rfl]
            dsimp only
            by_cases hq : parent = p
            · subst hq
              by_cases hcnt : cget st.exon_count_per_mRNA parent > 0
              · rw [if_pos hcnt] at h
                cases hlook : alookup st.exon_end parent with
                | none =>
                  rw [hlook] at h
                  exact absurd h (by simp)
                | some prevEnd =>
                  rw [hlook] at h
                  dsimp only at h
                  cases h
                  refine ⟨fun hn => ?_, fun se hse => ?_⟩
                  · rw [if_pos rfl] at hn
                    cases hn
                  · rw [if_pos rfl] at hse
                    cases hse
                    simp only [stepExonP, exonProj, hlook]
                    simp [hcnt, cget_cadd, alookup_dset]
              · rw [if_neg hcnt] at h
                cases h
                refine ⟨fun hn => ?_, fun se hse => ?_⟩
                · rw [if_pos rfl] at hn
                  cases hn
                · rw [if_pos rfl] at hse
                  cases hse
                  simp only [stepExonP, exonProj]
                  simp [hcnt, cget_cadd, alookup_dset]
            · rw [if_neg hq]
              refine ⟨fun _ => ?_, fun se hse => by cases hse⟩
              by_cases hcnt : cget st.exon_count_per_mRNA parent > 0
              · rw [if_pos hcnt] at h
                cases hlook : alookup st.exon_end parent with
                | none =>
                  rw [hlook] at h
                  exact absurd h (by simp)
                | some prevEnd =>
                  rw [hlook] at h
                  dsimp only at h
                  cases h
                  simp [exonProj, cget_cadd, alookup_dset, hq]
              · rw [if_neg hcnt] at h
                cases h
                simp [exonProj, cget_cadd, alookup_dset, hq]
          · rw [if_neg he]
            refine ⟨fun _ => ?_, fun se hse => by cases hse⟩
            by_cases hm : f = "mRNA".data
            · rw [if_pos hm] at h
              cases h
              rfl
            · rw [if_neg hm] at h
              by_cases hc : f = "CDS".data
              · rw [if_pos hc] at h
                cases h
                rfl
              · rw [if_neg hc, if_neg he] at h
                by_cases h5 : f = "five_prime_UTR".data
                · rw [if_pos h5] at h
                  cases h
                  rfl
                · rw [if_neg h5] at h
                  by_cases h3 : f = "three_prime_UTR".data
                  · rw [if_pos h3] at h
                    cases h
                    rfl
                  · rw [if_neg h3] at h
                    cases h
                    rfl



theorem statFrom_exonProj (p : List Char) :
    ∀ (lines : List (List Char)) (st st' : StatState),
      statFrom st lines = some st' →
      foldExonP (exonProj st p) (exonsOf p lines) = some (exonProj st' p) := by
  intro lines
  induction lines with
  | nil =>
    intro st st' h
    cases h
    rfl
  | cons x xs ih =>
    intro st st' h
    unfold statFrom at h
    cases hx : statStep st x with
    | none =>
      rw [hx] at h
      exact absurd h (by simp)
    | some st1 =>
      rw [hx] at h
      dsimp only at h
      have hstep := statStep_exonProj st st1 p x hx
      cases hline : exonLineOf p x with
      | none =>
        have h1 : exonsOf p (x :: xs) = exonsOf p xs := by
          simp [exonsOf, List.filterMap_cons, hline]
        rw [h1, ← hstep.1 hline]
        exact ih st1 st' h
      | some se =>
        have h1 : exonsOf p (x :: xs) = se :: exonsOf p xs := by
          simp [exonsOf, List.filterMap_cons, hline]
        rw [h1]
        unfold foldExonP
        rw [hstep.2 se hline]
        exact ih st1 st' h

theorem foldExonP_pos :
    ∀ (es : List (Int × Int)) (c pe il ic : Int), 0 < c →
      ∃ pe', foldExonP (c, some pe, il, ic) es =
        some (c + (es.length : Int), some pe',
              il + specIntronFrom pe es, ic + (es.length : Int)) := by
  intro es
  induction es with
  | nil =>
    intro c pe il ic hc
    exact ⟨pe, by simp [foldExonP, specIntronFrom]⟩
  | cons se rest ih =>
    intro c pe il ic hc
    obtain ⟨s, e⟩ := se
    obtain ⟨pe', hpe'⟩ := ih (c + 1) e (il + (s - pe - 1)) (ic + 1) (by omega)
    refine ⟨pe', ?_⟩
    have hstep : stepExonP (c, some pe, il, ic) (s, e) =
        some (c + 1, some e, il + (s - pe - 1), ic + 1) := by
      simp [stepExonP, hc]
    unfold foldExonP
    rw [hstep]
    dsimp only
    rw [hpe']
    simp only [specIntronFrom, List.length_cons, Prod.mk.injEq, Option.some.injEq]
    refine ⟨by push_cast; ring, trivial, by ring, by push_cast; ring⟩

theorem foldExonP_init (es : List (Int × Int)) :
    ∃ pe', foldExonP (0, none, 0, 0) es =
      some ((es.length : Int), pe', specIntronTotal es, specIntronCount es) := by
  cases es with
  | nil => exact ⟨none, by simp [foldExonP, specIntronTotal, specIntronCount]⟩
  | cons se rest =>
    obtain ⟨s, e⟩ := se
    obtain ⟨pe', h⟩ := foldExonP_pos rest 1 e 0 0 (by omega)
    refine ⟨some pe', ?_⟩
    have hstep : stepExonP (0, none, 0, 0) (s, e) = some (1, some e, 0, 0) := by
      simp [stepExonP]
    unfold foldExonP
    rw [hstep]
    dsimp only
    rw [h]
    simp only [specIntronTotal, specIntronCount, List.length_cons, Prod.mk.injEq,
      Option.some.injEq]
    refine ⟨by push_cast; ring, trivial, by simp, ?_⟩
    have : ¬((s, e) :: rest = ([] : List (Int × Int))) := by simp
    rw [if_neg this]
    push_cast
    ring

/-- Claim C1: in `stat_features`, intron lengths are derived from exon
records in file order: for every parent ID, each exon record after the
first contributes one intron of length
`current_exon.start - previous_exon.end - 1` where `previous` is the
immediately preceding exon record in file order for that parent; the
per-parent accumulated intron total and count equal the specification-side
derivation, and for exons `[(100,200),(300,400),(500,600)]` the derived
introns total 198 with count 2. -/
theorem stat_intron_file_order (lines : List (List Char)) (p : List Char) :
    ((processStat lines).map (fun st =>
        (cget st.intron_lengths_per_mRNA p, cget st.intron_count_per_mRNA p)) =
      (processStat lines).map (fun _ =>
        (specIntronTotal (exonsOf p lines), specIntronCount (exonsOf p lines)))) ∧
    specIntronTotal [((100 : Int), (200 : Int)), (300, 400), (500, 600)] = 198 ∧
    specIntronCount [((100 : Int), (200 : Int)), (300, 400), (500, 600)] = 2 ∧
    (processStat ["c\ts\texon\t100\t200\t.\t+\t.\tParent=m1".data,
        "c\ts\texon\t300\t400\t.\t+\t.\tParent=m1".data,
        "c\ts\texon\t500\t600\t.\t+\t.\tParent=m1".data]).map
      (fun st => (cget st.intron_lengths_per_mRNA "m1".data,
                  cget st.intron_count_per_mRNA "m1".data)) = some (198, 2) := by
  refine ⟨?_, rfl, rfl, by decide⟩
  cases h : processStat lines with
  | none => rfl
  | some st =>
    have h' : statFrom initState lines = some st := h
    have h1 := statFrom_exonProj p lines initState st h'
    have hinit : exonProj initState p = (0, none, 0, 0) := rfl
    rw [hinit] at h1
    obtain ⟨pe', h2⟩ := foldExonP_init (exonsOf p lines)
    rw [h2] at h1
    injection h1 with h1
    have h3 := congrArg (fun t => t.2.2.1) h1
    have h4 := congrArg (fun t => t.2.2.2) h1
    simp only [exonProj] at h3 h4
    simp only [Option.map_some']
    rw [← h3, ← h4]

/-- Claim C3 (amended): for every non-empty list of lengths collected by
`stat_features`, the report contains its count, max, min, median, and mean
(mean rounded to 2 decimal places for display); for an empty collected
list only its count (0) is emitted. -/
theorem print_stats_nonempty (st : StatState) (name : List Char) (L : List Int)
    (hmem : (name, L) ∈ statLists st) :
    (L ≠ [] →
      StatLine.cnt name L.length ∈ statReport st ∧
      StatLine.maxL name (listMax L) ∈ statReport st ∧
      StatLine.minL name (listMin L) ∈ statReport st ∧
      StatLine.medAvg name (medianQ L) (round2 (meanQ L)) ∈ statReport st) ∧
    (L = [] → StatLine.cnt name 0 ∈ statReport st) := by
  have hsub : ∀ x, x ∈ print_stats name L → x ∈ statReport st := by
    intro x hx
    unfold statReport
    exact List.mem_flatMap.mpr ⟨(name, L), hmem, hx⟩
  constructor
  · intro hne
    refine ⟨?_, ?_, ?_, ?_⟩ <;> apply hsub <;> simp [print_stats, hne]
  · intro hL
    apply hsub
    simp [print_stats, hL]

theorem print_stats_nonempty_witness :
    ("gene".data, [(501 : Int)]) ∈
      statLists { initState with gene_lengths := [501] } ∧
    ((([(501 : Int)] : List Int) ≠ [] →
      StatLine.cnt "gene".data [(501 : Int)].length ∈
        statReport { initState with gene_lengths := [501] } ∧
      StatLine.maxL "gene".data (listMax [501]) ∈
        statReport { initState with gene_lengths := [501] } ∧
      StatLine.minL "gene".data (listMin [501]) ∈
        statReport { initState with gene_lengths := [501] } ∧
      StatLine.medAvg "gene".data (medianQ [501]) (round2 (meanQ [501])) ∈
        statReport { initState with gene_lengths := [501] }) ∧
     (([(501 : Int)] : List Int) = [] →
      StatLine.cnt "gene".data 0 ∈
        statReport { initState with gene_lengths := [501] })) :=
  ⟨by decide,
   print_stats_nonempty { initState with gene_lengths := [501] }
     "gene".data [501] (by decide)⟩

/-- Claim C3, counterexample: on a file whose only record is one gene,
the mRNA list (and the other five non-gene lists) are empty and the report
contains only their count lines: no `mRNA` max/min/median/mean entry is
emitted, refuting "for every list". -/
theorem print_stats_empty_counterexample :
    stat_features ["c\ts\tgene\t100\t600\t.\t+\t.\tID=g1".data] =
      some [StatLine.cnt "gene".data 1, StatLine.maxL "gene".data 501,
            StatLine.minL "gene".data 501,
            StatLine.medAvg "gene".data (medianQ [501]) (round2 (meanQ [501])),
            StatLine.cnt "mRNA".data 0, StatLine.cnt "CDS".data 0,
            StatLine.cnt "exon".data 0, StatLine.cnt "intron".data 0,
            StatLine.cnt "five_prime_utr".data 0,
            StatLine.cnt "three_prime_utr".data 0] ∧
    (stat_features ["c\ts\tgene\t100\t600\t.\t+\t.\tID=g1".data]).map
      (fun r => r.any (fun sl =>
        match sl with
        | StatLine.maxL n _ => n = "mRNA".data
        | _ => false)) = some false := by
  constructor
  · rfl
  · rfl


theorem pySplit_sepFree (sep : Char) (t : List Char) (h : sep ∉ t) :
    pySplit sep t = [t] := by
  induction t with
  | nil => rfl
  | cons c cs ih =>
    have hc : ¬ c = sep := fun hh => h (hh ▸ List.mem_cons_self c cs)
    have hcs : sep ∉ cs := fun hh => h (List.mem_cons_of_mem c hh)
    simp only [pySplit, if_neg hc, ih hcs]

theorem pySplit_append_cons (sep : Char) (t r : List Char) (h : sep ∉ t) :
    pySplit sep (t ++ sep :: r) = t :: pySplit sep r := by
  induction t with
  | nil => simp [pySplit]
  | cons c cs ih =>
    have hc : ¬ c = sep := fun hh => h (hh ▸ List.mem_cons_self c cs)
    have hcs : sep ∉ cs := fun hh => h (List.mem_cons_of_mem c hh)
    simp only [List.cons_append, pySplit, if_neg hc, List.append_eq, ih hcs]

theorem pySplit_intercalate (sep : Char) :
    ∀ ts : List (List Char), ts ≠ [] → (∀ t ∈ ts, sep ∉ t) →
      pySplit sep (List.intercalate [sep] ts) = ts := by
  intro ts
  induction ts with
  | nil => intro h; exact absurd rfl h
  | cons t rest ih =>
    intro _ hfree
    cases rest with
    | nil =>
      simp only [List.intercalate, List.intersperse_single, List.flatten,
        List.append_nil]
      exact pySplit_sepFree sep t (hfree t (List.mem_cons_self t []))
    | cons t' rest' =>
      have hstep : List.intercalate [sep] (t :: t' :: rest') =
          t ++ sep :: List.intercalate [sep] (t' :: rest') := by
        simp [List.intercalate, List.intersperse_cons₂]
      rw [hstep, pySplit_append_cons sep t _ (hfree t (List.mem_cons_self t _)),
        ih (by simp) (fun u hu => hfree u (List.mem_cons_of_mem t hu))]

theorem matchGff3_valid (k v : List Char) (hk : k ≠ [])
    (hkw : k.all isWordChar = true) (hv : v ≠ []) (hvs : ';' ∉ v) :
    matchGff3 (k ++ '=' :: v) = some (k, v) := by
  have htake : (k ++ '=' :: v).takeWhile isWordChar = k := by
    rw [List.takeWhile_append_of_pos (by
      intro a ha; exact List.all_eq_true.mp hkw a ha)]
    simp [List.takeWhile_cons, isWordChar]
  have hdrop : (k ++ '=' :: v).drop k.length = '=' :: v := List.drop_left k _
  have hvv : v.takeWhile (fun c => c ≠ ';') = v := by
    rw [List.takeWhile_eq_self_iff]
    intro x hx
    simp only [ne_eq, decide_eq_true_eq]
    intro hxx
    exact hvs (hxx ▸ hx)
  simp only [matchGff3, htake, hdrop, hvv, if_neg hk, if_neg hv]

theorem dictPut_notMem (d : List (List Char × List Char)) (k v : List Char)
    (h : k ∉ d.map (·.1)) : dictPut d k v = d ++ [(k, v)] := by
  induction d with
  | nil => rfl
  | cons p rest ih =>
    obtain ⟨q, w⟩ := p
    have hq : ¬ q = k := by
      intro hh; exact h (by simp [hh])
    simp only [dictPut, if_neg hq, List.cons_append, List.cons.injEq, true_and]
    exact ih (fun hh => h (by simp at hh ⊢; exact Or.inr hh))

theorem parseAttrs_go_valid :
    ∀ (ps d : List (List Char × List Char)),
      (∀ p ∈ ps, p.1 ≠ [] ∧ p.1.all isWordChar = true ∧ p.2 ≠ [] ∧ ';' ∉ p.2) →
      (ps.map (·.1)).Nodup →
      (∀ p ∈ ps, p.1 ∉ d.map (·.1)) →
      parseAttrs.go matchGff3 (ps.map (fun p => p.1 ++ '=' :: p.2)) d =
        some (d ++ ps) := by
  intro ps
  induction ps with
  | nil => intro d _ _ _; simp [parseAttrs.go]
  | cons p rest ih =>
    intro d hval hnd hdis
    obtain ⟨k, v⟩ := p
    obtain ⟨hk, hkw, hv, hvs⟩ := hval (k, v) (List.mem_cons_self _ _)
    rw [List.map_cons] at hnd
    obtain ⟨hknotin, hnd'⟩ := List.nodup_cons.mp hnd
    simp only [List.map_cons, parseAttrs.go, matchGff3_valid k v hk hkw hv hvs]
    rw [dictPut_notMem d k v (hdis (k, v) (List.mem_cons_self _ _))]
    rw [ih (d ++ [(k, v)])
      (fun q hq => hval q (List.mem_cons_of_mem _ hq)) hnd' ?_]
    · simp
    · intro q hq
      simp only [List.map_append, List.mem_append]
      rintro (hc | hc)
      · exact hdis q (List.mem_cons_of_mem _ hq) hc
      · simp at hc
        exact hknotin (hc ▸ List.mem_map_of_mem (·.1) hq)

/-- Claim C4: for every valid GFF3 attribute string of `;`-separated
`key=value` tokens (keys nonempty runs of word characters, distinct;
values nonempty runs of non-`;` characters), parsing the string into the
key-to-value mapping (the dict comprehension of `extract_features_coord`)
and re-serializing the pairs in token order reproduces the original
string. -/
theorem attr_roundtrip (ps : List (List Char × List Char))
    (h : validAttrPairs ps = true) :
    parseAttrs matchGff3 (pySplit ';' (serializeAttrs ps)) = some ps ∧
    (parseAttrs matchGff3 (pySplit ';' (serializeAttrs ps))).map serializeAttrs =
      some (serializeAttrs ps) := by
  simp only [validAttrPairs, Bool.and_eq_true] at h
  obtain ⟨⟨hne, hnd⟩, hall⟩ := h
  replace hne : ps ≠ [] := of_decide_eq_true hne
  replace hnd : (ps.map (·.1)).Nodup := of_decide_eq_true hnd
  have hval' : ∀ p ∈ ps, p.1 ≠ [] ∧ p.1.all isWordChar = true ∧ p.2 ≠ [] ∧
      ';' ∉ p.2 := by
    intro p hp
    have hb := List.all_eq_true.mp hall p hp
    simp only [Bool.and_eq_true] at hb
    exact ⟨of_decide_eq_true hb.1.1.1, hb.1.1.2, of_decide_eq_true hb.1.2,
      of_decide_eq_true hb.2⟩
  have htok : pySplit ';' (serializeAttrs ps) =
      ps.map (fun p => p.1 ++ '=' :: p.2) := by
    apply pySplit_intercalate
    · simpa using hne
    · intro t ht
      obtain ⟨p, hp, rfl⟩ := List.mem_map.mp ht
      obtain ⟨hk1, hkw, hv1, hvs⟩ := hval' p hp
      intro hmem
      rcases List.mem_append.mp hmem with hm | hm
      · exact absurd (List.all_eq_true.mp hkw _ hm) (by decide)
      · rcases List.mem_cons.mp hm with hm' | hm'
        · cases hm'
        · exact hvs hm'
  have hparse : parseAttrs matchGff3 (ps.map (fun p => p.1 ++ '=' :: p.2)) =
      some ps := by
    have := parseAttrs_go_valid ps [] hval' hnd (by simp)
    simpa [parseAttrs] using this
  rw [htok, hparse]
  exact ⟨rfl, rfl⟩


theorem attr_roundtrip_witness :
    validAttrPairs [("ID".data, "g1".data), ("Name".data, "xy z".data)] = true ∧
    (parseAttrs matchGff3 (pySplit ';'
        (serializeAttrs [("ID".data, "g1".data), ("Name".data, "xy z".data)])) =
      some [("ID".data, "g1".data), ("Name".data, "xy z".data)] ∧
     (parseAttrs matchGff3 (pySplit ';'
        (serializeAttrs [("ID".data, "g1".data), ("Name".data, "xy z".data)]))).map
        serializeAttrs =
      some (serializeAttrs [("ID".data, "g1".data), ("Name".data, "xy z".data)])) :=
  ⟨by decide,
   attr_roundtrip [("ID".data, "g1".data), ("Name".data, "xy z".data)] (by decide)⟩

theorem char_toNat_inj {a b : Char} (h : a.toNat = b.toNat) : a = b :=
  Char.eq_of_val_eq (UInt32.eq_of_toBitVec_eq (BitVec.eq_of_toNat_eq h))

theorem listLEb_head_iff (a b : Char) (as bs : List Char) :
    listLEb (a :: as) (b :: bs) = true ↔
      (a.toNat < b.toNat ∨ (a.toNat = b.toNat ∧ listLEb as bs = true)) := by
  simp only [listLEb]
  by_cases h1 : a.toNat < b.toNat
  · simp [h1]
  · by_cases h2 : b.toNat < a.toNat
    · have hne : ¬ a.toNat = b.toNat := by omega
      simp [h1, h2, hne]
    · have heq : a.toNat = b.toNat := by omega
      simp [h1, h2, heq]

theorem listLEb_total : ∀ a b : List Char, (listLEb a b || listLEb b a) = true := by
  intro a
  induction a with
  | nil => intro b; simp [listLEb]
  | cons x xs ih =>
    intro b
    cases b with
    | nil => simp [listLEb]
    | cons y ys =>
      rw [Bool.or_eq_true, listLEb_head_iff, listLEb_head_iff]
      rcases lt_trichotomy x.toNat y.toNat with h | h | h
      · exact Or.inl (Or.inl h)
      · rcases Bool.or_eq_true_iff.mp (ih ys) with h' | h'
        · exact Or.inl (Or.inr ⟨h, h'⟩)
        · exact Or.inr (Or.inr ⟨h.symm, h'⟩)
      · exact Or.inr (Or.inl h)

theorem listLEb_trans : ∀ a b c : List Char, listLEb a b = true →
    listLEb b c = true → listLEb a c = true := by
  intro a
  induction a with
  | nil => intro b c _ _; simp [listLEb]
  | cons x xs ih =>
    intro b c h1 h2
    cases b with
    | nil => simp [listLEb] at h1
    | cons y ys =>
      cases c with
      | nil => simp [listLEb] at h2
      | cons z zs =>
        rw [listLEb_head_iff] at h1 h2 ⊢
        rcases h1 with h1 | ⟨h1, r1⟩
        · rcases h2 with h2 | ⟨h2, _⟩
          · exact Or.inl (lt_trans h1 h2)
          · exact Or.inl (h2 ▸ h1)
        · rcases h2 with h2 | ⟨h2, r2⟩
          · exact Or.inl (h1 ▸ h2)
          · exact Or.inr ⟨h1.trans h2, ih ys zs r1 r2⟩

theorem listLEb_antisymm : ∀ a b : List Char, listLEb a b = true →
    listLEb b a = true → a = b := by
  intro a
  induction a with
  | nil =>
    intro b _ h2
    cases b with
    | nil => rfl
    | cons y ys => simp [listLEb] at h2
  | cons x xs ih =>
    intro b h1 h2
    cases b with
    | nil => simp [listLEb] at h1
    | cons y ys =>
      rw [listLEb_head_iff] at h1 h2
      rcases h1 with h1 | ⟨h1, r1⟩
      · rcases h2 with h2 | ⟨h2, _⟩
        · exact absurd h2 (lt_asymm h1)
        · exact absurd (h2 ▸ h1) (lt_irrefl _)
      · rcases h2 with h2 | ⟨_, r2⟩
        · exact absurd (h1 ▸ h2) (lt_irrefl _)
        · rw [char_toNat_inj h1, ih ys r1 r2]

theorem keyLEb_eq_true_iff (x y : SortKey) :
    keyLEb x y = true ↔
      ((x.1 = y.1 ∧ (x.2.1 < y.2.1 ∨ (x.2.1 = y.2.1 ∧ (x.2.2.1 < y.2.2.1 ∨
        (x.2.2.1 = y.2.2.1 ∧ x.2.2.2 ≤ y.2.2.2))))) ∨
       (x.1 ≠ y.1 ∧ listLEb x.1 y.1 = true)) := by
  unfold keyLEb
  by_cases e : x.1 = y.1
  · rw [if_pos e]
    by_cases f : x.2.1 = y.2.1
    · rw [if_pos f]
      by_cases g : x.2.2.1 = y.2.2.1
      · rw [if_pos g]; simp [e, f, g]
      · rw [if_neg g]; simp [e, f, g]; omega
    · rw [if_neg f]; simp [e, f]; omega
  · rw [if_neg e]; simp [e]

theorem keyLEb_refl (x : SortKey) : keyLEb x x = true := by
  rw [keyLEb_eq_true_iff]
  exact Or.inl ⟨rfl, Or.inr ⟨rfl, Or.inr ⟨rfl, le_refl _⟩⟩⟩

theorem keyLEb_total (x y : SortKey) : (keyLEb x y || keyLEb y x) = true := by
  rw [Bool.or_eq_true, keyLEb_eq_true_iff, keyLEb_eq_true_iff]
  by_cases e : x.1 = y.1
  · by_cases f : x.2.1 ≤ y.2.1
    · by_cases f' : y.2.1 ≤ x.2.1
      · by_cases g : x.2.2.1 ≤ y.2.2.1
        · by_cases g' : y.2.2.1 ≤ x.2.2.1
          · rcases le_total x.2.2.2 y.2.2.2 with hd | hd
            · exact Or.inl (Or.inl ⟨e, by omega⟩)
            · exact Or.inr (Or.inl ⟨e.symm, by omega⟩)
          · exact Or.inl (Or.inl ⟨e, by omega⟩)
        · exact Or.inr (Or.inl ⟨e.symm, by omega⟩)
      · exact Or.inl (Or.inl ⟨e, by omega⟩)
    · exact Or.inr (Or.inl ⟨e.symm, by omega⟩)
  · have e' : y.1 ≠ x.1 := fun hh => e hh.symm
    rcases Bool.or_eq_true_iff.mp (listLEb_total x.1 y.1) with h | h
    · exact Or.inl (Or.inr ⟨e, h⟩)
    · exact Or.inr (Or.inr ⟨e', h⟩)

theorem keyLEb_trans (x y z : SortKey) (h1 : keyLEb x y = true)
    (h2 : keyLEb y z = true) : keyLEb x z = true := by
  rw [keyLEb_eq_true_iff] at h1 h2 ⊢
  rcases h1 with ⟨e1, n1⟩ | ⟨e1, s1⟩
  · rcases h2 with ⟨e2, n2⟩ | ⟨e2, s2⟩
    · exact Or.inl ⟨e1.trans e2, by omega⟩
    · exact Or.inr ⟨fun hc => e2 (e1 ▸ hc), e1 ▸ s2⟩
  · rcases h2 with ⟨e2, n2⟩ | ⟨e2, s2⟩
    · exact Or.inr ⟨fun hc => e1 (hc ▸ e2.symm), e2 ▸ s1⟩
    · by_cases hxz : x.1 = z.1
      · exfalso
        have s2' : listLEb y.1 x.1 = true := hxz ▸ s2
        exact e1 (listLEb_antisymm x.1 y.1 s1 s2')
      · exact Or.inr ⟨hxz, listLEb_trans x.1 y.1 z.1 s1 s2⟩

theorem keyAll_ok (tblO : Option (List Char → Nat)) :
    ∀ (r : List (List Char)) (keyed : List (List Char × SortKey)),
      keyAll tblO r = some keyed →
      keyed.map (·.1) = r ∧ ∀ pr ∈ keyed, sort_key tblO pr.1 = some pr.2 := by
  intro r
  induction r with
  | nil =>
    intro keyed h
    cases h
    exact ⟨rfl, by simp⟩
  | cons l ls ih =>
    intro keyed h
    unfold keyAll at h
    cases hk : sort_key tblO l with
    | none => rw [hk] at h; exact absurd h (by simp)
    | some k =>
      rw [hk] at h
      cases hrest : keyAll tblO ls with
      | none => rw [hrest] at h; exact absurd h (by simp)
      | some rest =>
        rw [hrest] at h
        dsimp only at h
        cases h
        obtain ⟨h1, h2⟩ := ih rest hrest
        refine ⟨by simp [h1], ?_⟩
        intro pr hpr
        rcases List.mem_cons.mp hpr with rfl | hpr'
        · exact hk
        · exact h2 pr hpr'

theorem insortKey_perm (x : List Char × SortKey)
    (l : List (List Char × SortKey)) : List.Perm (insortKey x l) (x :: l) := by
  induction l with
  | nil => exact List.Perm.refl _
  | cons y ys ih =>
    unfold insortKey
    by_cases h : keyLEb x.2 y.2 = true
    · rw [if_pos h]
    · rw [if_neg h]
      exact (ih.cons y).trans (List.Perm.swap x y ys)

theorem mem_insortKey {z x : List Char × SortKey}
    {l : List (List Char × SortKey)} :
    z ∈ insortKey x l ↔ z = x ∨ z ∈ l := by
  rw [(insortKey_perm x l).mem_iff, List.mem_cons]

theorem sortPairs_perm (l : List (List Char × SortKey)) :
    List.Perm (sortPairs l) l := by
  induction l with
  | nil => exact List.Perm.refl _
  | cons x xs ih =>
    unfold sortPairs
    exact (insortKey_perm x (sortPairs xs)).trans (ih.cons x)

theorem insortKey_pairwise (x : List Char × SortKey)
    (l : List (List Char × SortKey))
    (h : List.Pairwise (fun a b => keyLEb a.2 b.2 = true) l) :
    List.Pairwise (fun a b => keyLEb a.2 b.2 = true) (insortKey x l) := by
  induction l with
  | nil => simp [insortKey]
  | cons y ys ih =>
    unfold insortKey
    by_cases hle : keyLEb x.2 y.2 = true
    · rw [if_pos hle]
      refine List.Pairwise.cons ?_ h
      intro z hz
      rcases List.mem_cons.mp hz with rfl | hz'
      · exact hle
      · exact keyLEb_trans _ _ _ hle (List.rel_of_pairwise_cons h hz')
    · rw [if_neg hle]
      have hyx : keyLEb y.2 x.2 = true := by
        rcases Bool.or_eq_true_iff.mp (keyLEb_total x.2 y.2) with h' | h'
        · exact absurd h' hle
        · exact h'
      refine List.Pairwise.cons ?_ (ih (List.Pairwise.of_cons h))
      intro z hz
      rcases mem_insortKey.mp hz with rfl | hz'
      · exact hyx
      · exact List.rel_of_pairwise_cons h hz'

theorem sortPairs_pairwise (l : List (List Char × SortKey)) :
    List.Pairwise (fun a b => keyLEb a.2 b.2 = true) (sortPairs l) := by
  induction l with
  | nil => exact List.Pairwise.nil
  | cons x xs ih => exact insortKey_pairwise x (sortPairs xs) ih

theorem filter_insortKey_eq (k : SortKey) (x : List Char × SortKey)
    (hx : x.2 = k) (l : List (List Char × SortKey)) :
    (insortKey x l).filter (fun pr => decide (pr.2 = k)) =
      x :: l.filter (fun pr => decide (pr.2 = k)) := by
  induction l with
  | nil => simp [insortKey, hx]
  | cons y ys ih =>
    unfold insortKey
    by_cases hle : keyLEb x.2 y.2 = true
    · rw [if_pos hle]
      simp [List.filter_cons, hx]
    · rw [if_neg hle]
      have hy : ¬ y.2 = k := by
        intro hk
        apply hle
        rw [hx, hk]
        exact keyLEb_refl k
      simp only [List.filter_cons, decide_eq_true_eq, if_neg hy, ih]

theorem filter_insortKey_ne (k : SortKey) (x : List Char × SortKey)
    (hx : ¬ x.2 = k) (l : List (List Char × SortKey)) :
    (insortKey x l).filter (fun pr => decide (pr.2 = k)) =
      l.filter (fun pr => decide (pr.2 = k)) := by
  induction l with
  | nil => simp [insortKey, hx]
  | cons y ys ih =>
    unfold insortKey
    by_cases hle : keyLEb x.2 y.2 = true
    · rw [if_pos hle]
      simp [List.filter_cons, hx]
    · rw [if_neg hle]
      simp only [List.filter_cons, ih]

theorem sortPairs_filter (k : SortKey) (l : List (List Char × SortKey)) :
    (sortPairs l).filter (fun pr => decide (pr.2 = k)) =
      l.filter (fun pr => decide (pr.2 = k)) := by
  induction l with
  | nil => rfl
  | cons x xs ih =>
    unfold sortPairs
    by_cases hx : x.2 = k
    · rw [filter_insortKey_eq k x hx, ih]
      simp [List.filter_cons, hx]
    · rw [filter_insortKey_ne k x hx, ih]
      simp [List.filter_cons, hx]

theorem sortPairs_of_pairwise (l : List (List Char × SortKey))
    (h : List.Pairwise (fun a b => keyLEb a.2 b.2 = true) l) :
    sortPairs l = l := by
  induction l with
  | nil => rfl
  | cons x xs ih =>
    unfold sortPairs
    rw [ih (List.Pairwise.of_cons h)]
    cases xs with
    | nil => rfl
    | cons y ys =>
      unfold insortKey
      rw [if_pos (List.rel_of_pairwise_cons h (List.mem_cons_self y ys))]

/-- Claim C2: `sort_features` writes exactly the non-comment, non-blank
lines of the input (stripped), reordered by a stable sort on the
lexicographic key `(chromosome, start, feature_rank, end)` with the
per-format rank table (`rankTable`; unknown feature types rank 99):
the output is a permutation of the retained lines, is pairwise ordered by
the key, and every equal-key class keeps its original file order. -/
theorem sort_features_sorted_stable (fmt : List Char) (tbl : List Char → Nat)
    (lines out : List (List Char))
    (hfmt : rankTable fmt = some tbl)
    (hout : sortLines fmt lines = some out) :
    out.Perm (retainedOf lines) ∧
    List.Pairwise (keyLEprop tbl) out ∧
    ∀ k : SortKey,
      out.filter (fun l => decide (sort_key (some tbl) l = some k)) =
        (retainedOf lines).filter
          (fun l => decide (sort_key (some tbl) l = some k)) := by
  unfold sortLines at hout
  rw [hfmt] at hout
  cases hka : keyAll (some tbl) (retainedOf lines) with
  | none => rw [hka] at hout; exact absurd hout (by simp)
  | some keyed =>
    rw [hka] at hout
    dsimp only at hout
    obtain ⟨hmap, hkeys⟩ := keyAll_ok (some tbl) _ keyed hka
    cases hout
    refine ⟨?_, ?_, ?_⟩
    · have hp := (sortPairs_perm keyed).map (·.1)
      rw [hmap] at hp
      exact hp
    · have hp := sortPairs_pairwise keyed
      rw [List.pairwise_map]
      refine List.Pairwise.imp_of_mem ?_ hp
      intro a b ha hb hab ka kb hka' hkb'
      rw [hkeys a ((sortPairs_perm keyed).mem_iff.mp ha)] at hka'
      rw [hkeys b ((sortPairs_perm keyed).mem_iff.mp hb)] at hkb'
      cases hka'
      cases hkb'
      exact hab
    · intro k
      have htr : ∀ (L : List (List Char × SortKey)),
          (∀ pr ∈ L, sort_key (some tbl) pr.1 = some pr.2) →
          (L.map (·.1)).filter
              (fun l => decide (sort_key (some tbl) l = some k)) =
            (L.filter (fun pr => decide (pr.2 = k))).map (·.1) := by
        intro L hL
        rw [List.filter_map]
        congr 1
        apply List.filter_congr
        intro pr hpr
        simp only [Function.comp]
        rw [hL pr hpr]
        simp
      have hmem_sp : ∀ pr ∈ sortPairs keyed,
          sort_key (some tbl) pr.1 = some pr.2 :=
        fun pr hpr => hkeys pr ((sortPairs_perm keyed).mem_iff.mp hpr)
      rw [htr _ hmem_sp, ← hmap, htr _ hkeys, sortPairs_filter k keyed]

theorem sort_features_sorted_stable_witness :
    rankTable "gff3".data = some gff3Rank ∧
    sortLines "gff3".data
      ["chr1\ts\texon\t300\t400\t.\t+\t.\tx".data,
       "chr1\ts\tgene\t100\t500\t.\t+\t.\ty".data,
       "chr1\ts\tmRNA\t100\t500\t.\t+\t.\tz".data] =
      some ["chr1\ts\tgene\t100\t500\t.\t+\t.\ty".data,
            "chr1\ts\tmRNA\t100\t500\t.\t+\t.\tz".data,
            "chr1\ts\texon\t300\t400\t.\t+\t.\tx".data] ∧
    (["chr1\ts\tgene\t100\t500\t.\t+\t.\ty".data,
      "chr1\ts\tmRNA\t100\t500\t.\t+\t.\tz".data,
      "chr1\ts\texon\t300\t400\t.\t+\t.\tx".data].Perm
        (retainedOf
          ["chr1\ts\texon\t300\t400\t.\t+\t.\tx".data,
           "chr1\ts\tgene\t100\t500\t.\t+\t.\ty".data,
           "chr1\ts\tmRNA\t100\t500\t.\t+\t.\tz".data]) ∧
     List.Pairwise (keyLEprop gff3Rank)
       ["chr1\ts\tgene\t100\t500\t.\t+\t.\ty".data,
        "chr1\ts\tmRNA\t100\t500\t.\t+\t.\tz".data,
        "chr1\ts\texon\t300\t400\t.\t+\t.\tx".data] ∧
     ∀ k : SortKey,
       ["chr1\ts\tgene\t100\t500\t.\t+\t.\ty".data,
        "chr1\ts\tmRNA\t100\t500\t.\t+\t.\tz".data,
        "chr1\ts\texon\t300\t400\t.\t+\t.\tx".data].filter
          (fun l => decide (sort_key (some gff3Rank) l = some k)) =
        (retainedOf
          ["chr1\ts\texon\t300\t400\t.\t+\t.\tx".data,
           "chr1\ts\tgene\t100\t500\t.\t+\t.\ty".data,
           "chr1\ts\tmRNA\t100\t500\t.\t+\t.\tz".data]).filter
          (fun l => decide (sort_key (some gff3Rank) l = some k))) :=
  ⟨rfl, by decide,
   sort_features_sorted_stable "gff3".data gff3Rank
     ["chr1\ts\texon\t300\t400\t.\t+\t.\tx".data,
      "chr1\ts\tgene\t100\t500\t.\t+\t.\ty".data,
      "chr1\ts\tmRNA\t100\t500\t.\t+\t.\tz".data]
     ["chr1\ts\tgene\t100\t500\t.\t+\t.\ty".data,
      "chr1\ts\tmRNA\t100\t500\t.\t+\t.\tz".data,
      "chr1\ts\texon\t300\t400\t.\t+\t.\tx".data]
     rfl (by decide)⟩


theorem dropWhile_dropWhile (p : Char → Bool) (l : List Char) :
    (l.dropWhile p).dropWhile p = l.dropWhile p := by
  induction l with
  | nil => rfl
  | cons x xs ih =>
    by_cases h : p x = true
    · simp [List.dropWhile_cons, h, ih]
    · simp [List.dropWhile_cons, h]

theorem head_dropWhile_false (p : Char → Bool) :
    ∀ (l : List Char) (a : Char) (t : List Char),
      l.dropWhile p = a :: t → p a = false := by
  intro l
  induction l with
  | nil => intro a t h; cases h
  | cons x xs ih =>
    intro a t h
    by_cases hx : p x = true
    · rw [List.dropWhile_cons, if_pos hx] at h
      exact ih a t h
    · rw [List.dropWhile_cons, if_neg hx] at h
      cases h
      simpa using hx

theorem pyStrip_idem (l : List Char) : pyStrip (pyStrip l) = pyStrip l := by
  unfold pyStrip
  have hstep1 : ((l.dropWhile isWsChar).reverse.dropWhile isWsChar).reverse.dropWhile
      isWsChar = ((l.dropWhile isWsChar).reverse.dropWhile isWsChar).reverse := by
    cases hBr : ((l.dropWhile isWsChar).reverse.dropWhile isWsChar).reverse with
    | nil => rfl
    | cons b t =>
      have hsplit : (l.dropWhile isWsChar).reverse.takeWhile isWsChar ++
          (l.dropWhile isWsChar).reverse.dropWhile isWsChar =
          (l.dropWhile isWsChar).reverse :=
        List.takeWhile_append_dropWhile isWsChar _
      have hA' : l.dropWhile isWsChar =
          ((l.dropWhile isWsChar).reverse.dropWhile isWsChar).reverse ++
          ((l.dropWhile isWsChar).reverse.takeWhile isWsChar).reverse := by
        calc l.dropWhile isWsChar
            = (l.dropWhile isWsChar).reverse.reverse := by
              rw [List.reverse_reverse]
          _ = ((l.dropWhile isWsChar).reverse.takeWhile isWsChar ++
              (l.dropWhile isWsChar).reverse.dropWhile isWsChar).reverse := by
              rw [hsplit]
          _ = _ := List.reverse_append _ _
      rw [hBr] at hA'
      have hhead : isWsChar b = false :=
        head_dropWhile_false isWsChar l b _ (by rw [hA']; rfl)
      rw [List.dropWhile_cons, if_neg (by simp [hhead])]
  rw [hstep1, List.reverse_reverse, dropWhile_dropWhile]

theorem pySplit_not_mem_sep (sep : Char) :
    ∀ (c : List Char) (t : List Char), t ∈ pySplit sep c → sep ∉ t := by
  intro c
  induction c with
  | nil =>
    intro t ht
    simp only [pySplit, List.mem_singleton] at ht
    subst ht
    simp
  | cons x xs ih =>
    intro t ht
    unfold pySplit at ht
    by_cases hx : x = sep
    · rw [if_pos hx] at ht
      rcases List.mem_cons.mp ht with rfl | ht'
      · simp
      · exact ih t ht'
    · rw [if_neg hx] at ht
      cases hsplit : pySplit sep xs with
      | nil =>
        rw [hsplit] at ht
        simp only [List.mem_singleton] at ht
        subst ht
        intro hmem
        rcases List.mem_cons.mp hmem with rfl | hmem'
        · exact hx rfl
        · cases hmem'
      | cons u us =>
        rw [hsplit] at ht
        rcases List.mem_cons.mp ht with rfl | ht'
        · intro hmem
          rcases List.mem_cons.mp hmem with rfl | hmem'
          · exact hx rfl
          · exact ih u (by rw [hsplit]; exact List.mem_cons_self u us) hmem'
        · exact ih t (by rw [hsplit]; exact List.mem_cons_of_mem u ht')

theorem mem_pyStrip {x : Char} {l : List Char} (h : x ∈ pyStrip l) : x ∈ l := by
  unfold pyStrip at h
  rw [List.mem_reverse] at h
  have h2 := (List.dropWhile_sublist (l := (l.dropWhile isWsChar).reverse)
    (p := isWsChar)).mem h
  rw [List.mem_reverse] at h2
  exact (List.dropWhile_sublist (l := l) (p := isWsChar)).mem h2

theorem pySplit_intercalate_tail (sep : Char) :
    ∀ ts : List (List Char), ts ≠ [] → (∀ t ∈ ts, sep ∉ t) →
      pySplit sep (List.intercalate [sep] ts ++ [sep]) = ts ++ [[]] := by
  intro ts
  induction ts with
  | nil => intro h; exact absurd rfl h
  | cons t rest ih =>
    intro _ hfree
    cases rest with
    | nil =>
      simp only [List.intercalate, List.intersperse_single, List.flatten,
        List.append_nil]
      have : t ++ [sep] = t ++ sep :: [] := rfl
      rw [this, pySplit_append_cons sep t [] (hfree t (List.mem_cons_self t []))]
      rfl
    | cons t' rest' =>
      have hstep : List.intercalate [sep] (t :: t' :: rest') ++ [sep] =
          t ++ sep :: (List.intercalate [sep] (t' :: rest') ++ [sep]) := by
        simp [List.intercalate, List.intersperse_cons₂]
      rw [hstep, pySplit_append_cons sep t _ (hfree t (List.mem_cons_self t _)),
        ih (by simp) (fun u hu => hfree u (List.mem_cons_of_mem t hu))]
      rfl

theorem retainedOf_member (lines : List (List Char)) :
    ∀ m ∈ retainedOf lines, m ≠ [] ∧ pyStrip m = m := by
  intro m hm
  unfold retainedOf at hm
  obtain ⟨l₀, hl₀, rfl⟩ := List.mem_map.mp hm
  have hc := (List.mem_filter.mp hl₀).2
  simp only [Bool.and_eq_true, decide_eq_true_eq, Bool.not_eq_true'] at hc
  exact ⟨hc.1, pyStrip_idem l₀⟩

theorem retainedOf_self (ls : List (List Char))
    (h : ∀ l ∈ ls, l ≠ [] ∧ pyStrip l = l ∧ startsHash l = false) :
    retainedOf ls = ls := by
  unfold retainedOf
  rw [List.filter_eq_self.mpr ?_]
  · calc List.map pyStrip ls = List.map id ls :=
        List.map_congr_left (fun a ha => (h a ha).2.1)
      _ = ls := List.map_id ls
  · intro a ha
    obtain ⟨h1, h2, h3⟩ := h a ha
    simp [h2, h1, h3]

theorem keyAll_of_isSome (tblO : Option (List Char → Nat)) :
    ∀ r : List (List Char), (∀ l ∈ r, (sort_key tblO l).isSome = true) →
      keyAll tblO r =
        some (r.map (fun l => (l, (sort_key tblO l).getD ([], 0, 0, 0)))) := by
  intro r
  induction r with
  | nil => intro _; rfl
  | cons l ls ih =>
    intro h
    have hl := h l (List.mem_cons_self l ls)
    cases hk : sort_key tblO l with
    | none => rw [hk] at hl; cases hl
    | some k =>
      unfold keyAll
      rw [hk, ih (fun u hu => h u (List.mem_cons_of_mem l hu))]
      simp [hk]


/-- Claim C5 (amended): `sort_features` is idempotent on every input file
none of whose retained (non-comment, non-blank) lines strips to a string
beginning with `#`: sorting the output again produces byte-identical
output.  (Without that proviso a retained line such as `" #…"` is written
stripped and then filtered out as a comment by the second run.) -/
theorem sort_idempotent (fmt c o : List Char)
    (h : sortContent fmt c = some o)
    (hnh : (retainedOf (pySplit '\n' c)).all (fun l => !startsHash l) = true) :
    sortContent fmt o = some o := by
  unfold sortContent at h
  cases hsl : sortLines fmt (pySplit '\n' c) with
  | none => rw [hsl] at h; cases h
  | some out =>
    rw [hsl] at h
    simp only [Option.map_some'] at h
    cases h
    unfold sortLines at hsl
    cases hka : keyAll (rankTable fmt) (retainedOf (pySplit '\n' c)) with
    | none => rw [hka] at hsl; exact absurd hsl (by simp)
    | some keyed =>
      rw [hka] at hsl
      dsimp only at hsl
      cases hsl
      obtain ⟨hmap, hkeys⟩ := keyAll_ok _ _ keyed hka
      have hperm : List.Perm ((sortPairs keyed).map (·.1))
          (retainedOf (pySplit '\n' c)) := by
        have hp := (sortPairs_perm keyed).map (·.1)
        rwa [hmap] at hp
      have hmemret : ∀ l ∈ (sortPairs keyed).map (·.1),
          l ∈ retainedOf (pySplit '\n' c) := fun l hl => hperm.mem_iff.mp hl
      have hret_free : ∀ t ∈ retainedOf (pySplit '\n' c), '\n' ∉ t := by
        intro t ht hmem
        unfold retainedOf at ht
        obtain ⟨l₀, hl₀, rfl⟩ := List.mem_map.mp ht
        exact pySplit_not_mem_sep '\n' c l₀ (List.mem_of_mem_filter hl₀)
          (mem_pyStrip hmem)
      have hmemprops : ∀ l ∈ (sortPairs keyed).map (·.1),
          l ≠ [] ∧ pyStrip l = l ∧ startsHash l = false := by
        intro l hl
        obtain ⟨h1, h2⟩ := retainedOf_member _ l (hmemret l hl)
        refine ⟨h1, h2, ?_⟩
        have := List.all_eq_true.mp hnh l (hmemret l hl)
        simpa using this
      have hkeys_out : ∀ l ∈ (sortPairs keyed).map (·.1),
          (sort_key (rankTable fmt) l).isSome = true := by
        intro l hl
        obtain ⟨pr, hpr, rfl⟩ := List.mem_map.mp hl
        rw [hkeys pr ((sortPairs_perm keyed).mem_iff.mp hpr)]
        rfl
      have hkeyed2 : ((sortPairs keyed).map (·.1)).map
          (fun l => (l, (sort_key (rankTable fmt) l).getD ([], 0, 0, 0))) =
          sortPairs keyed := by
        rw [List.map_map]
        have hstep1 : (sortPairs keyed).map
            ((fun l => (l, (sort_key (rankTable fmt) l).getD ([], 0, 0, 0))) ∘
              (·.1)) = (sortPairs keyed).map id := by
          apply List.map_congr_left
          intro pr hpr
          have hk := hkeys pr ((sortPairs_perm keyed).mem_iff.mp hpr)
          simp [Function.comp, hk]
        rw [hstep1, List.map_id]
      cases hout0 : (sortPairs keyed).map (·.1) with
      | nil => rfl
      | cons l0 rest0 =>
        rw [hout0] at hmemret hmemprops hkeys_out hkeyed2
        have hsplit2 : pySplit '\n' (outBytes (l0 :: rest0)) =
            (l0 :: rest0) ++ [[]] := by
          unfold outBytes
          exact pySplit_intercalate_tail '\n' (l0 :: rest0) (by simp)
            (fun t ht => hret_free t (hmemret t ht))
        have hret2 : retainedOf ((l0 :: rest0) ++ [[]]) = l0 :: rest0 := by
          unfold retainedOf
          rw [List.filter_append, List.map_append]
          have hA : retainedOf (l0 :: rest0) = l0 :: rest0 :=
            retainedOf_self (l0 :: rest0) hmemprops
          unfold retainedOf at hA
          rw [hA]
          simp [pyStrip]
        have hka2 := keyAll_of_isSome (rankTable fmt) (l0 :: rest0) hkeys_out
        have hsp2 : sortPairs ((l0 :: rest0).map
            (fun l => (l, (sort_key (rankTable fmt) l).getD ([], 0, 0, 0)))) =
            (l0 :: rest0).map
              (fun l => (l, (sort_key (rankTable fmt) l).getD ([], 0, 0, 0))) := by
          rw [hkeyed2]
          exact sortPairs_of_pairwise _ (sortPairs_pairwise keyed)
        unfold sortContent sortLines
        rw [hsplit2, hret2, hka2]
        dsimp only
        rw [hsp2, hkeyed2, hout0]
        rfl

/-- Claim C5, counterexample: the single-line file `" #x\t.\t.\t1\t2"`
(leading blank, then `#`) is retained by the filter, stripped, sorted and
written as `"#x\t.\t.\t1\t2\n"`; re-sorting that output drops the line
as a comment and writes just `"\n"`, so the bytes differ. -/
theorem sort_idempotent_counterexample :
    sortContent "gff3".data " #x\t.\t.\t1\t2".data =
      some "#x\t.\t.\t1\t2\n".data ∧
    sortContent "gff3".data "#x\t.\t.\t1\t2\n".data ≠
      some "#x\t.\t.\t1\t2\n".data := by
  constructor
  · decide
  · decide


theorem sort_idempotent_witness :
    sortContent "gff3".data "b\t.\t.\t2\t3\na\t.\t.\t1\t2".data =
      some "a\t.\t.\t1\t2\nb\t.\t.\t2\t3\n".data ∧
    (retainedOf (pySplit '\n' "b\t.\t.\t2\t3\na\t.\t.\t1\t2".data)).all
      (fun l => !startsHash l) = true ∧
    sortContent "gff3".data "a\t.\t.\t1\t2\nb\t.\t.\t2\t3\n".data =
      some "a\t.\t.\t1\t2\nb\t.\t.\t2\t3\n".data :=
  ⟨by decide, by decide,
   sort_idempotent "gff3".data "b\t.\t.\t2\t3\na\t.\t.\t1\t2".data
     "a\t.\t.\t1\t2\nb\t.\t.\t2\t3\n".data (by decide) (by decide)⟩


theorem alookup_coordAdd (d : Coord) (k k' : List Char) (e : Entry) :
    alookup (coordAdd d k e) k' =
      if k = k' then some ((alookup d k').getD [] ++ [e]) else alookup d k' := by
  induction d with
  | nil =>
    by_cases h : k = k' <;> simp [coordAdd, alookup, h]
  | cons p rest ih =>
    obtain ⟨q, es⟩ := p
    by_cases hq : q = k
    · subst hq
      simp only [coordAdd, if_pos rfl]
      by_cases h : q = k' <;> simp [alookup_cons, h]
    · simp only [coordAdd, if_neg hq]
      by_cases h : q = k'
      · subst h
        have hk : ¬ k = q := fun hh => hq hh.symm
        simp [alookup_cons, hk]
      · simp [alookup_cons, hq, h, ih]

theorem map_fst_coordAdd (d : Coord) (k : List Char) (e : Entry) :
    (coordAdd d k e).map (·.1) =
      if k ∈ d.map (·.1) then d.map (·.1) else d.map (·.1) ++ [k] := by
  induction d with
  | nil => simp [coordAdd]
  | cons p rest ih =>
    obtain ⟨q, es⟩ := p
    by_cases hq : q = k
    · subst hq
      simp [coordAdd]
    · simp only [coordAdd, if_neg hq, List.map_cons]
      have hne : ¬ k = q := fun hh => hq hh.symm
      by_cases hmem : k ∈ rest.map (·.1)
      · simp [hmem, hne, ih]
      · simp [hmem, hne, ih]

theorem firstKeys_cons_mem (seen : List (List Char)) {k0 : List Char}
    (ks : List (List Char)) (h : k0 ∈ seen) :
    firstKeys seen (k0 :: ks) = firstKeys seen ks := by
  unfold firstKeys
  rw [if_pos h]
  cases ks <;> rfl

theorem firstKeys_cons_not_mem (seen : List (List Char)) {k0 : List Char}
    (ks : List (List Char)) (h : k0 ∉ seen) :
    firstKeys seen (k0 :: ks) = k0 :: firstKeys (k0 :: seen) ks := by
  unfold firstKeys
  rw [if_neg h]
  cases ks <;> rfl

theorem firstKeys_congr :
    ∀ (ks seen₁ seen₂ : List (List Char)), (∀ x, x ∈ seen₁ ↔ x ∈ seen₂) →
      firstKeys seen₁ ks = firstKeys seen₂ ks := by
  intro ks
  induction ks with
  | nil => intro _ _ _; rfl
  | cons k rest ih =>
    intro seen₁ seen₂ h
    unfold firstKeys
    by_cases hk : k ∈ seen₁
    · rw [if_pos hk, if_pos ((h k).mp hk)]
      exact ih seen₁ seen₂ h
    · rw [if_neg hk, if_neg (fun hc => hk ((h k).mpr hc))]
      rw [ih (k :: seen₁) (k :: seen₂) ?_]
      intro x
      simp [h x]

theorem mem_of_mem_firstKeys :
    ∀ (ks seen : List (List Char)) (k : List Char),
      k ∈ firstKeys seen ks → k ∈ ks := by
  intro ks
  induction ks with
  | nil => intro seen k h; cases h
  | cons k0 rest ih =>
    intro seen k h
    unfold firstKeys at h
    by_cases hk : k0 ∈ seen
    · rw [if_pos hk] at h
      exact List.mem_cons_of_mem k0 (ih seen k h)
    · rw [if_neg hk] at h
      rcases List.mem_cons.mp h with rfl | h'
      · exact List.mem_cons_self k rest
      · exact List.mem_cons_of_mem k0 (ih (k0 :: seen) k h')

theorem alookup_foldCoord :
    ∀ (ps : List (List Char × Entry)) (acc : Coord) (k : List Char),
      alookup (foldCoord acc ps) k =
        match alookup acc k with
        | some vs =>
          some (vs ++ (ps.filter (fun q => decide (q.1 = k))).map (·.2))
        | none =>
          if k ∈ ps.map (·.1) then
            some ((ps.filter (fun q => decide (q.1 = k))).map (·.2))
          else none := by
  intro ps
  induction ps with
  | nil =>
    intro acc k
    cases h : alookup acc k <;> simp [foldCoord, h]
  | cons p rest ih =>
    intro acc k
    obtain ⟨k0, e0⟩ := p
    unfold foldCoord
    rw [ih (coordAdd acc k0 e0) k, alookup_coordAdd]
    by_cases hk : k0 = k
    · subst hk
      cases h : alookup acc k0 with
      | some vs => simp [h, List.filter_cons, List.append_assoc]
      | none => simp [h, List.filter_cons]
    · have hk' : ¬ k = k0 := fun hh => hk hh.symm
      cases h : alookup acc k with
      | some vs => simp [h, hk, List.filter_cons, hk']
      | none =>
        simp only [h, hk, List.filter_cons, List.map_cons, if_neg hk]
        by_cases hm : k ∈ rest.map (·.1) <;> simp [hm, hk', List.filter_cons]

theorem map_fst_foldCoord :
    ∀ (ps : List (List Char × Entry)) (acc : Coord),
      (foldCoord acc ps).map (·.1) =
        acc.map (·.1) ++ firstKeys (acc.map (·.1)) (ps.map (·.1)) := by
  intro ps
  induction ps with
  | nil => intro acc; simp [foldCoord, firstKeys]
  | cons p rest ih =>
    intro acc
    obtain ⟨k0, e0⟩ := p
    unfold foldCoord
    rw [ih (coordAdd acc k0 e0), map_fst_coordAdd]
    by_cases hk : k0 ∈ acc.map (·.1)
    · rw [if_pos hk]
      simp only [List.map_cons]
      rw [firstKeys_cons_mem _ _ hk]
    · rw [if_neg hk]
      simp only [List.map_cons]
      rw [firstKeys_cons_not_mem _ _ hk]
      rw [firstKeys_congr (rest.map (·.1)) (acc.map (·.1) ++ [k0])
        (k0 :: acc.map (·.1)) (by intro x; simp [or_comm])]
      simp [List.append_assoc]


theorem extractStep_ok (pat : List Char → Option (List Char × List Char))
    (feature key : List Char) (coord coord' : Coord) (l : List Char)
    (h : extractStep pat feature key coord l = .ok coord') :
    (extractLineParse pat feature key l = none ∧ coord' = coord) ∨
    (∃ kv : List Char × Entry, extractLineParse pat feature key l = some kv ∧
      coord' = coordAdd coord kv.1 kv.2) := by
  unfold extractStep at h
  unfold extractLineParse
  by_cases hskip : (startsHash l || decide (pyStrip l = [])) = true
  · rw [if_pos hskip] at h
    rw [if_pos hskip]
    cases h
    exact Or.inl ⟨rfl, rfl⟩
  · rw [if_neg hskip] at h
    rw [if_neg hskip]
    dsimp only at h ⊢
    cases h2 : (pySplit '\t' (pyStrip l)).get? 2 with
    | none =>
      rw [h2] at h
      exact absurd h (by simp)
    | some f =>
      try rw [h2] at h
      try rw [h2]
      dsimp only at h ⊢
      by_cases hf : f ≠ feature
      · rw [if_pos hf] at h
        rw [if_pos hf]
        cases h
        exact Or.inl ⟨rfl, rfl⟩
      · rw [if_neg hf] at h
        rw [if_neg hf]
        cases h8 : (pySplit '\t' (pyStrip l)).get? 8 with
        | none =>
          rw [h8] at h
          exact absurd h (by simp)
        | some attrField =>
          try rw [h8] at h
          try rw [h8]
          dsimp only at h ⊢
          cases hpa : parseAttrs pat (pySplit ';' attrField) with
          | none =>
            rw [hpa] at h
            exact absurd h (by simp)
          | some attrs =>
            try rw [hpa] at h
            try rw [hpa]
            dsimp only at h ⊢
            cases hlk : alookup attrs key with
            | none =>
              rw [hlk] at h
              exact absurd h (by simp)
            | some kval =>
              try rw [hlk] at h
              try rw [hlk]
              dsimp only at h ⊢
              have hlen : 8 < (pySplit '\t' (pyStrip l)).length := by
                by_contra hc
                rw [List.get?_eq_none.mpr (by omega)] at h8
                cases h8
              have h0s : (pySplit '\t' (pyStrip l)).get? 0 ≠ none := by
                intro hc
                rw [List.get?_eq_none] at hc
                omega
              have h3s : (pySplit '\t' (pyStrip l)).get? 3 ≠ none := by
                intro hc
                rw [List.get?_eq_none] at hc
                omega
              have h4s : (pySplit '\t' (pyStrip l)).get? 4 ≠ none := by
                intro hc
                rw [List.get?_eq_none] at hc
                omega
              have h6s : (pySplit '\t' (pyStrip l)).get? 6 ≠ none := by
                intro hc
                rw [List.get?_eq_none] at hc
                omega
              cases h0 : (pySplit '\t' (pyStrip l)).get? 0 with
              | none => exact absurd h0 h0s
              | some c0 =>
                cases h3 : (pySplit '\t' (pyStrip l)).get? 3 with
                | none => exact absurd h3 h3s
                | some c3 =>
                  cases h4 : (pySplit '\t' (pyStrip l)).get? 4 with
                  | none => exact absurd h4 h4s
                  | some c4 =>
                    cases h6 : (pySplit '\t' (pyStrip l)).get? 6 with
                    | none => exact absurd h6 h6s
                    | some c6 =>
                      try rw [h0, h3, h4, h6] at h
                      try rw [h0, h3, h4, h6]
                      dsimp only at h ⊢
                      cases hi3 : pyInt c3 with
                      | none =>
                        rw [hi3] at h
                        exact absurd h (by simp)
                      | some sv =>
                        try rw [hi3] at h
                        try rw [hi3]
                        cases hi4 : pyInt c4 with
                        | none =>
                          rw [hi4] at h
                          exact absurd h (by simp)
                        | some ev =>
                          try rw [hi4] at h
                          try rw [hi4]
                          dsimp only at h ⊢
                          cases h
                          exact Or.inr ⟨(kval, (c0, sv, ev, c6)), rfl, rfl⟩

theorem extractFrom_foldCoord (pat : List Char → Option (List Char × List Char))
    (feature key : List Char) :
    ∀ (lines : List (List Char)) (coord res : Coord),
      extractFrom pat feature key coord lines = .ok res →
      res = foldCoord coord (extractPairs pat feature key lines) := by
  intro lines
  induction lines with
  | nil =>
    intro coord res h
    cases h
    rfl
  | cons x xs ih =>
    intro coord res h
    unfold extractFrom at h
    cases hx : extractStep pat feature key coord x with
    | error e => rw [hx] at h; cases h
    | ok coord1 =>
      rw [hx] at h
      dsimp only at h
      rcases extractStep_ok pat feature key coord coord1 x hx with
        ⟨hnone, heq⟩ | ⟨kv, hsome, heq⟩
      · have hpz : extractPairs pat feature key (x :: xs) =
            extractPairs pat feature key xs := by
          simp [extractPairs, List.filterMap_cons, hnone]
        rw [hpz, ← heq]
        exact ih coord1 res h
      · obtain ⟨kk, ev⟩ := kv
        have hpz : extractPairs pat feature key (x :: xs) =
            (kk, ev) :: extractPairs pat feature key xs := by
          simp [extractPairs, List.filterMap_cons, hsome]
        rw [hpz]
        unfold foldCoord
        rw [← heq]
        exact ih coord1 res h

/-- Claim C9: `extract_features_coord` groups order-preservingly — when it
succeeds, the returned mapping lists its keys in first-occurrence file
order, and each key maps to exactly the records carrying that key value,
appended in file order. -/
theorem extract_order_preserving (fmt : List Char)
    (pat : List Char → Option (List Char × List Char))
    (feature key : List Char) (lines : List (List Char)) (coord : Coord)
    (hp : attrPattern fmt = some pat)
    (h : extract_features_coord fmt feature key lines = .ok coord) :
    coord.map (·.1) =
      firstOccurrences ((extractPairs pat feature key lines).map (·.1)) ∧
    ∀ k ∈ coord.map (·.1),
      alookup coord k =
        some (((extractPairs pat feature key lines).filter
          (fun q => decide (q.1 = k))).map (·.2)) := by
  unfold extract_features_coord at h
  rw [hp] at h
  have hres := extractFrom_foldCoord pat feature key lines [] coord h
  subst hres
  constructor
  · rw [map_fst_foldCoord]
    rfl
  · intro k hk
    rw [alookup_foldCoord]
    have hmem : k ∈ (extractPairs pat feature key lines).map (·.1) := by
      rw [map_fst_foldCoord] at hk
      simp only [List.map_nil, List.nil_append] at hk
      exact mem_of_mem_firstKeys _ [] k hk
    simp [alookup, hmem]


theorem extract_order_preserving_witness :
    attrPattern "gff3".data = some matchGff3 ∧
    extract_features_coord "gff3".data "gene".data "ID".data
      ["c\ts\tgene\t1\t2\t.\t+\t.\tID=g1".data,
       "c\ts\tgene\t3\t4\t.\t+\t.\tID=g2".data,
       "c\ts\tgene\t5\t6\t.\t+\t.\tID=g1".data] =
      .ok [("g1".data, [("c".data, 1, 2, "+".data), ("c".data, 5, 6, "+".data)]),
           ("g2".data, [("c".data, 3, 4, "+".data)])] ∧
    (([("g1".data, [("c".data, 1, 2, "+".data), ("c".data, 5, 6, "+".data)]),
       ("g2".data, [("c".data, 3, 4, "+".data)])] : Coord).map (·.1) =
      firstOccurrences ((extractPairs matchGff3 "gene".data "ID".data
        ["c\ts\tgene\t1\t2\t.\t+\t.\tID=g1".data,
         "c\ts\tgene\t3\t4\t.\t+\t.\tID=g2".data,
         "c\ts\tgene\t5\t6\t.\t+\t.\tID=g1".data]).map (·.1)) ∧
     ∀ k ∈ ([("g1".data, [("c".data, 1, 2, "+".data), ("c".data, 5, 6, "+".data)]),
        ("g2".data, [("c".data, 3, 4, "+".data)])] : Coord).map (·.1),
       alookup [("g1".data, [("c".data, 1, 2, "+".data), ("c".data, 5, 6, "+".data)]),
           ("g2".data, [("c".data, 3, 4, "+".data)])] k =
         some (((extractPairs matchGff3 "gene".data "ID".data
           ["c\ts\tgene\t1\t2\t.\t+\t.\tID=g1".data,
            "c\ts\tgene\t3\t4\t.\t+\t.\tID=g2".data,
            "c\ts\tgene\t5\t6\t.\t+\t.\tID=g1".data]).filter
           (fun q => decide (q.1 = k))).map (·.2))) :=
  ⟨rfl, by rfl,
   extract_order_preserving "gff3".data matchGff3 "gene".data "ID".data
     ["c\ts\tgene\t1\t2\t.\t+\t.\tID=g1".data,
      "c\ts\tgene\t3\t4\t.\t+\t.\tID=g2".data,
      "c\ts\tgene\t5\t6\t.\t+\t.\tID=g1".data]
     [("g1".data, [("c".data, 1, 2, "+".data), ("c".data, 5, 6, "+".data)]),
      ("g2".data, [("c".data, 3, 4, "+".data)])]
     rfl (by rfl)⟩


end Gff
